import Mathlib

/-!
# inkfish: access-control engine and policy parser

A shallow embedding of `config.go`.  Go strings are modelled as Lean `String`s
(valid UTF-8 text); `len(s)` is the UTF-8 byte length.  A Go function that can
return an error or raise a run-time panic (index out of range) returns a
`Result`.
-/

namespace Inkfish

/-! ## Outcomes of a Go call -/

/-- Outcome of a Go call: a value, a returned `error` (with its message), or a
run-time panic. -/
inductive Result (α : Type) where
  | ok : α → Result α
  | error : String → Result α
  | panic : Result α
  deriving DecidableEq, Repr

/-- Go slice indexing `xs[i]`: panics when `i` is out of range. -/
def index {α : Type} (xs : List α) (i : Nat) : Result α :=
  match xs.get? i with
  | some x => Result.ok x
  | none => Result.panic

/-- Message of `errors.Wrap(err, msg)`: the message, a colon, the cause. -/
def wrap (cause msg : String) : String :=
  msg ++ ": " ++ cause

/-! ## The regular-expression library, taken as given -/

/-- The `regexp` package: `compileErr p` is `none` when `p` compiles and the
error text otherwise; `matchString p url` says whether the expression compiled
from `p` matches `url`. -/
structure RegexpLib where
  compileErr : String → Option String
  matchString : String → String → Bool

/-- A compiled regular expression, identified by its source text (what
`Regexp.String` returns). -/
structure Regexp where
  source : String
  deriving DecidableEq, Repr

/-- Model of `regexp.Compile`. -/
def RegexpLib.Compile (R : RegexpLib) (p : String) : Result Regexp :=
  match R.compileErr p with
  | none => Result.ok ⟨p⟩
  | some e => Result.error e

/-- Model of `Regexp.MatchString`. -/
def Regexp.MatchString (R : RegexpLib) (re : Regexp) (url : String) : Bool :=
  R.matchString re.source url

/-! ## Data model -/

structure AclEntry where
  AllMethods : Bool
  Methods : List String
  Pattern : Regexp
  deriving DecidableEq, Repr

structure Acl where
  From : List String
  Entries : List AclEntry
  deriving DecidableEq, Repr

structure UserEntry where
  Username : String
  PasswordHash : String
  deriving DecidableEq, Repr

/-- The policy store: the `Acls` and `Passwd` fields of the proxy. -/
structure Store where
  Acls : List Acl
  Passwd : List UserEntry
  deriving DecidableEq, Repr

/-! ## Strings -/

/-- UTF-8 encoding of one character, as byte values. -/
def utf8EncodeChar (c : Char) : List Nat :=
  let v := c.toNat
  if v ≤ 0x7f then [v]
  else if v ≤ 0x7ff then [0xc0 ||| (v >>> 6), 0x80 ||| (v &&& 0x3f)]
  else if v ≤ 0xffff then
    [0xe0 ||| (v >>> 12), 0x80 ||| ((v >>> 6) &&& 0x3f), 0x80 ||| (v &&& 0x3f)]
  else
    [0xf0 ||| (v >>> 18), 0x80 ||| ((v >>> 12) &&& 0x3f), 0x80 ||| ((v >>> 6) &&& 0x3f),
      0x80 ||| (v &&& 0x3f)]

/-- Go `[]byte(s)`: the UTF-8 bytes of a string. -/
def bytes (s : String) : List Nat := s.data.flatMap utf8EncodeChar

/-- Go `len(s)`: the length of a string in bytes. -/
def len (s : String) : Nat := (bytes s).length

/-- Go `s[0] == c` for an ASCII byte `c`, on a non-empty string. -/
def firstIs (s : String) (c : Char) : Bool := s.data.head? = some c

/-! ## SHA-256 (`crypto/sha256`) over byte lists -/

namespace SHA256

def K : List Nat := [
  0x428a2f98, 0x71374491, 0xb5c0fbcf, 0xe9b5dba5, 0x3956c25b, 0x59f111f1, 0x923f82a4, 0xab1c5ed5,
  0xd807aa98, 0x12835b01, 0x243185be, 0x550c7dc3, 0x72be5d74, 0x80deb1fe, 0x9bdc06a7, 0xc19bf174,
  0xe49b69c1, 0xefbe4786, 0x0fc19dc6, 0x240ca1cc, 0x2de92c6f, 0x4a7484aa, 0x5cb0a9dc, 0x76f988da,
  0x983e5152, 0xa831c66d, 0xb00327c8, 0xbf597fc7, 0xc6e00bf3, 0xd5a79147, 0x06ca6351, 0x14292967,
  0x27b70a85, 0x2e1b2138, 0x4d2c6dfc, 0x53380d13, 0x650a7354, 0x766a0abb, 0x81c2c92e, 0x92722c85,
  0xa2bfe8a1, 0xa81a664b, 0xc24b8b70, 0xc76c51a3, 0xd192e819, 0xd6990624, 0xf40e3585, 0x106aa070,
  0x19a4c116, 0x1e376c08, 0x2748774c, 0x34b0bcb5, 0x391c0cb3, 0x4ed8aa4a, 0x5b9cca4f, 0x682e6ff3,
  0x748f82ee, 0x78a5636f, 0x84c87814, 0x8cc70208, 0x90befffa, 0xa4506ceb, 0xbef9a3f7, 0xc67178f2]

def H0 : List Nat := [
  0x6a09e667, 0xbb67ae85, 0x3c6ef372, 0xa54ff53a, 0x510e527f, 0x9b05688c, 0x1f83d9ab, 0x5be0cd19]

def rotr (x n : Nat) : Nat := ((x >>> n) ||| (x <<< (32 - n))) % 2 ^ 32

def bnot (x : Nat) : Nat := 2 ^ 32 - 1 - x

/-- The padded message: a `0x80` byte, zero bytes up to 56 mod 64, then the
bit length as 8 big-endian bytes. -/
def pad (msg : List Nat) : List Nat :=
  let n := msg.length
  let bits := 8 * n
  msg ++ [0x80] ++ List.replicate ((64 - (n + 9) % 64) % 64) 0 ++
    [bits >>> 56 % 256, bits >>> 48 % 256, bits >>> 40 % 256, bits >>> 32 % 256,
     bits >>> 24 % 256, bits >>> 16 % 256, bits >>> 8 % 256, bits % 256]

/-- Big-endian 32-bit words of a byte list. -/
def words : Nat → List Nat → List Nat
  | 0, _ => []
  | n + 1, bs =>
    (bs.getD 0 0 * 2 ^ 24 + bs.getD 1 0 * 2 ^ 16 + bs.getD 2 0 * 2 ^ 8 + bs.getD 3 0) ::
      words n (bs.drop 4)

def extend (w : List Nat) : Nat :=
  let x := w.getD 1 0
  let y := w.getD 14 0
  let s0 := rotr x 7 ^^^ rotr x 18 ^^^ (x >>> 3)
  let s1 := rotr y 17 ^^^ rotr y 19 ^^^ (y >>> 10)
  (w.getD 0 0 + s0 + w.getD 9 0 + s1) % 2 ^ 32

/-- The message schedule after the first 16 words. -/
def schedule : Nat → List Nat → List Nat
  | 0, _ => []
  | n + 1, w => extend w :: schedule n (w.drop 1 ++ [extend w])

/-- One round on the working variables `[a, b, c, d, e, f, g, h]`. -/
def round (s : List Nat) (kw : Nat × Nat) : List Nat :=
  let a := s.getD 0 0
  let b := s.getD 1 0
  let c := s.getD 2 0
  let d := s.getD 3 0
  let e := s.getD 4 0
  let f := s.getD 5 0
  let g := s.getD 6 0
  let h := s.getD 7 0
  let S1 := rotr e 6 ^^^ rotr e 11 ^^^ rotr e 25
  let ch := (e &&& f) ^^^ (bnot e &&& g)
  let t1 := (h + S1 + ch + kw.1 + kw.2) % 2 ^ 32
  let S0 := rotr a 2 ^^^ rotr a 13 ^^^ rotr a 22
  let maj := (a &&& b) ^^^ (a &&& c) ^^^ (b &&& c)
  let t2 := (S0 + maj) % 2 ^ 32
  [(t1 + t2) % 2 ^ 32, a, b, c, (d + t1) % 2 ^ 32, e, f, g]

def compress (h : List Nat) (block : List Nat) : List Nat :=
  let w := words 16 block
  let s := (K.zip (w ++ schedule 48 w)).foldl round h
  List.zipWith (fun x y => (x + y) % 2 ^ 32) h s

def blocks : Nat → List Nat → List Nat → List Nat
  | 0, h, _ => h
  | n + 1, h, bs => blocks n (compress h (bs.take 64)) (bs.drop 64)

def wordBytes (w : Nat) : List Nat :=
  [w >>> 24 % 256, w >>> 16 % 256, w >>> 8 % 256, w % 256]

/-- Model of `sha256.Sum256`: the 32-byte digest of a byte list. -/
def Sum256 (msg : List Nat) : List Nat :=
  let p := pad msg
  (blocks (p.length / 64) H0 p).flatMap wordBytes

end SHA256

/-! ## `encoding/hex`, `crypto/subtle` -/

/-- Value of a hexadecimal digit (either case), `none` for any other
character. -/
def fromHexChar (c : Char) : Option Nat :=
  if '0' ≤ c ∧ c ≤ '9' then some (c.toNat - '0'.toNat)
  else if 'a' ≤ c ∧ c ≤ 'f' then some (c.toNat - 'a'.toNat + 10)
  else if 'A' ≤ c ∧ c ≤ 'F' then some (c.toNat - 'A'.toNat + 10)
  else none

/-- The decoding loop of `hex.DecodeString`; `none` stands for a returned
error (an invalid byte or an odd length). -/
def decodeChars : List Char → Option (List Nat)
  | [] => some []
  | [_] => none
  | p :: q :: rest =>
    match fromHexChar p, fromHexChar q with
    | some a, some b =>
      match decodeChars rest with
      | some bs => some ((a * 16 + b) :: bs)
      | none => none
    | _, _ => none

/-- Model of `hex.DecodeString`. -/
def DecodeString (s : String) : Option (List Nat) := decodeChars s.data

def hexDigit (n : Nat) : Char :=
  if n < 10 then Char.ofNat ('0'.toNat + n) else Char.ofNat ('a'.toNat + (n - 10))

/-- Model of `hex.EncodeToString`: lowercase, two digits per byte. -/
def EncodeToString (bs : List Nat) : String :=
  ⟨bs.flatMap (fun b => [hexDigit (b / 16), hexDigit (b % 16)])⟩

/-- Model of `subtle.ConstantTimeCompare`: 1 when the two slices have equal
contents, 0 otherwise. -/
def ConstantTimeCompare (x y : List Nat) : Nat :=
  if x = y then 1 else 0

/-! ## `strings`, `unicode`, `path/filepath` -/

/-- Model of `unicode.IsSpace`. -/
def isSpace (c : Char) : Bool :=
  let v := c.toNat
  v = 0x09 || v = 0x0a || v = 0x0b || v = 0x0c || v = 0x0d || v = 0x20 ||
  v = 0x85 || v = 0xa0 || v = 0x1680 || (0x2000 ≤ v && v ≤ 0x200a) ||
  v = 0x2028 || v = 0x2029 || v = 0x202f || v = 0x205f || v = 0x3000

/-- Model of `strings.TrimLeft`. -/
def TrimLeft (s cutset : String) : String :=
  ⟨s.data.dropWhile (fun c => cutset.data.contains c)⟩

/-- Model of `strings.TrimRight`. -/
def TrimRight (s cutset : String) : String :=
  ⟨(s.data.reverse.dropWhile (fun c => cutset.data.contains c)).reverse⟩

/-- Model of `strings.Trim`. -/
def Trim (s cutset : String) : String :=
  TrimRight (TrimLeft s cutset) cutset

/-- Scan of `strings.Fields`: `cur` is the field being read. -/
def fieldsAux : List Char → List Char → List String
  | [], cur => if cur = [] then [] else [⟨cur⟩]
  | c :: cs, cur =>
    if isSpace c then
      if cur = [] then fieldsAux cs [] else ⟨cur⟩ :: fieldsAux cs []
    else fieldsAux cs (cur ++ [c])

/-- Model of `strings.Fields`: the maximal runs of non-space characters. -/
def Fields (s : String) : List String := fieldsAux s.data []

/-- Scan of `strings.Split`: `cur` is the piece being read. -/
def splitAux (sep : Char) : List Char → List Char → List String
  | [], cur => [⟨cur⟩]
  | c :: cs, cur =>
    if c = sep then ⟨cur⟩ :: splitAux sep cs [] else splitAux sep cs (cur ++ [c])

/-- Model of `strings.Split` for a one-character separator (every call in
`config.go` passes one). -/
def Split (s : String) (sep : Char) : List String := splitAux sep s.data []

/-- Backward scan of `filepath.Ext`, on the reversed path. -/
def extAux : List Char → List Char → String
  | [], _ => ""
  | c :: cs, acc =>
    if c = '/' then "" else if c = '.' then ⟨c :: acc⟩ else extAux cs (c :: acc)

/-- Model of `filepath.Ext`. -/
def Ext (path : String) : String := extAux path.data.reverse []

/-! ## CredentialStore -/

/-- The loop over `c.Passwd` in `CredentialsAreValid`. -/
def credentialsLoop (hashedPw : List Nat) : List UserEntry → String → Bool
  | [], _ => false
  | ent :: rest, user =>
    if ent.Username = user then
      match DecodeString ent.PasswordHash with
      | none => false
      | some actualPw =>
        if ConstantTimeCompare hashedPw actualPw = 1 then true
        else credentialsLoop hashedPw rest user
    else credentialsLoop hashedPw rest user

def Store.CredentialsAreValid (c : Store) (user password : String) : Bool :=
  let hashedPw := SHA256.Sum256 (bytes password)
  credentialsLoop hashedPw c.Passwd user

/-! ## PolicyParser -/

def PasswordHashLen : Nat := 64

/-- The tail of `parseAclEntry`: compile the pattern and fill the entry. -/
def finishAclEntry (R : RegexpLib) (allMethods : Bool) (methods : List String)
    (urlPattern : String) : Result AclEntry :=
  match R.Compile urlPattern with
  | Result.ok re => Result.ok ⟨allMethods, methods, re⟩
  | Result.error e => Result.error (wrap e "failed to parse url pattern")
  | Result.panic => Result.panic

def parseAclEntry (R : RegexpLib) (words : List String) : Result AclEntry :=
  if words.length ≠ 2 ∧ words.length ≠ 3 then
    Result.error "wrong number of fields (expecting 2 or 3)"
  else
    match index words 0 with
    | Result.panic => Result.panic
    | Result.error e => Result.error e
    | Result.ok w0 =>
      if w0 ≠ "url" then Result.error "expecting entry to start with \x27url\x27"
      else if words.length = 2 then
        match index words 1 with
        | Result.panic => Result.panic
        | Result.error e => Result.error e
        | Result.ok urlPattern => finishAclEntry R true [] urlPattern
      else
        match index words 1, index words 2 with
        | Result.ok w1, Result.ok urlPattern =>
          finishAclEntry R false (Split w1 ',') urlPattern
        | Result.error e, _ => Result.error e
        | _, Result.error e => Result.error e
        | _, _ => Result.panic

/-- The loop of `parseAcl`: `line_no` is the 0-based index of the next line,
`aclConfig` the Acl built so far. -/
def parseAclLoop (R : RegexpLib) : List String → Nat → Acl → Result Acl
  | [], _, aclConfig => Result.ok aclConfig
  | l :: rest, line_no, aclConfig =>
    let l := TrimLeft l " \t"
    if len l = 0 || firstIs l '#' then parseAclLoop R rest (line_no + 1) aclConfig
    else
      let words := Fields l
      match index words 0 with
      | Result.panic => Result.panic
      | Result.error e => Result.error e
      | Result.ok w0 =>
        if w0 = "from" then
          parseAclLoop R rest (line_no + 1)
            { aclConfig with From := aclConfig.From ++ words.drop 1 }
        else if w0 = "url" then
          match parseAclEntry R words with
          | Result.panic => Result.panic
          | Result.error e =>
            Result.error (wrap e ("config error at line: " ++ toString (line_no + 1)))
          | Result.ok newEntry =>
            parseAclLoop R rest (line_no + 1)
              { aclConfig with Entries := aclConfig.Entries ++ [newEntry] }
        else Result.error ("unknown directive at line: " ++ toString (line_no + 1))

def parseAcl (R : RegexpLib) (lines : List String) : Result Acl :=
  parseAclLoop R lines 0 ⟨[], []⟩

def loadAclFromFile (R : RegexpLib) (data : String) : Result Acl :=
  let lines := Split data '\n'
  match parseAcl R lines with
  | Result.ok result => Result.ok result
  | Result.error e => Result.error (wrap e "error loading acls")
  | Result.panic => Result.panic

/-- The loop of `loadUsersFromFile`: `result` is the list built so far. -/
def loadUsersLoop : List String → List UserEntry → Result (List UserEntry)
  | [], result => Result.ok result
  | line :: rest, result =>
    let line := Trim line " \t"
    if len line = 0 || firstIs line '#' then loadUsersLoop rest result
    else
      let fields := Split line ':'
      match index fields 0, index fields 1 with
      | Result.ok username, Result.ok passwordHash =>
        if len username = 0 || len passwordHash ≠ PasswordHashLen then
          loadUsersLoop rest result
        else loadUsersLoop rest (result ++ [⟨username, passwordHash⟩])
      | Result.error e, _ => Result.error e
      | _, Result.error e => Result.error e
      | _, _ => Result.panic

def loadUsersFromFile (data : String) : Result (List UserEntry) :=
  let lines := Split data '\n'
  loadUsersLoop lines []

/-! ## Loading a directory -/

/-- A directory entry, as `ioutil.ReadDir` lists it. -/
structure FileInfo where
  Name : String
  IsDir : Bool
  deriving DecidableEq, Repr

/-- The file system the load runs against: `ReadDir` and `ReadFile` return the
content or an error text, `Join` is `filepath.Join`. -/
structure FileSystem where
  ReadDir : String → Except String (List FileInfo)
  ReadFile : String → Except String String
  Join : String → String → String

/-- The loop over the directory entries in `LoadConfigFromDirectory`; returns
the store as the loop leaves it, with the outcome. -/
def loadFiles (R : RegexpLib) (fs : FileSystem) (configDir : String) :
    List FileInfo → Store → Store × Result Unit
  | [], proxy => (proxy, Result.ok ())
  | fi :: rest, proxy =>
    if fi.IsDir then loadFiles R fs configDir rest proxy
    else
      let fullpath := fs.Join configDir fi.Name
      match fs.ReadFile fullpath with
      | Except.error e =>
        (proxy, Result.error (wrap e ("failed read config file: " ++ fullpath)))
      | Except.ok data =>
        if Ext fi.Name = ".conf" then
          match loadAclFromFile R data with
          | Result.error e =>
            (proxy, Result.error (wrap e ("error in acl file: " ++ fullpath)))
          | Result.panic => (proxy, Result.panic)
          | Result.ok acl =>
            loadFiles R fs configDir rest { proxy with Acls := proxy.Acls ++ [acl] }
        else if Ext fi.Name = ".passwd" then
          match loadUsersFromFile data with
          | Result.error e =>
            (proxy, Result.error (wrap e ("error in passwd file: " ++ fullpath)))
          | Result.panic => (proxy, Result.panic)
          | Result.ok userRecords =>
            loadFiles R fs configDir rest
              { proxy with Passwd := proxy.Passwd ++ userRecords }
        else loadFiles R fs configDir rest proxy

def Store.LoadConfigFromDirectory (R : RegexpLib) (fs : FileSystem) (proxy : Store)
    (configDir : String) : Store × Result Unit :=
  match fs.ReadDir configDir with
  | Except.error e =>
    (proxy, Result.error (wrap e ("failed to list config dir: " ++ configDir)))
  | Except.ok files => loadFiles R fs configDir files proxy

/-! ## AclEngine -/

def listContainsString : List String → String → Bool
  | [], _ => false
  | s :: rest, needle => if s = needle then true else listContainsString rest needle

/-- The loop over `c.Entries` in `Acl.Permits`. -/
def Acl.permitsEntries (R : RegexpLib) : List AclEntry → String → String → Bool
  | [], _, _ => false
  | e :: rest, method, url =>
    if e.AllMethods || listContainsString e.Methods method then
      if e.Pattern.MatchString R url then true
      else Acl.permitsEntries R rest method url
    else Acl.permitsEntries R rest method url

def Acl.Permits (R : RegexpLib) (c : Acl) (frm method url : String) : Bool :=
  if !listContainsString c.From frm then false
  else Acl.permitsEntries R c.Entries method url

/-- The loop over `c.Acls` in `Inkfish.Permits`. -/
def permitsAcls (R : RegexpLib) : List Acl → String → String → String → Bool
  | [], _, _, _ => false
  | aclConfig :: rest, frm, method, url =>
    if aclConfig.Permits R frm method url then true
    else permitsAcls R rest frm method url

def Store.Permits (R : RegexpLib) (c : Store) (frm method url : String) : Bool :=
  permitsAcls R c.Acls frm method url

/-! ## Test fixtures -/

/-- A small regular-expression library for concrete runs: every pattern but
`"("` compiles, and a pattern matches the urls it is a substring of. -/
def literalLib : RegexpLib where
  compileErr p := if p = "(" then some "missing closing )" else none
  matchString p url := decide (p.data <:+: url.data)

/-- The SHA-256 digest of `"foo"` in lowercase hex, as in `config_test.go`. -/
def fooHash : String :=
  "2c26b46b68ffc68ff99b453c1d30413413422d706483bfa0f98a5e886266e7ae"

/-- A 64-byte hash field that is not hexadecimal. -/
def notHexHash : String :=
  "zzzzzzzzzzzzzzzzzzzzzzzzzzzzzzzzzzzzzzzzzzzzzzzzzzzzzzzzzzzzzzzz"

/-- The store of `TestCheckCredentials`. -/
def fooStore : Store := ⟨[], [⟨"foo", fooHash⟩]⟩

/-- Two entries for `"foo"`: a hash that does not decode, then the valid one. -/
def rotatedStore : Store := ⟨[], [⟨"foo", notHexHash⟩, ⟨"foo", fooHash⟩]⟩

/-- A directory with a valid `a.conf` followed by a `b.conf` that does not
parse. -/
def brokenDirFS : FileSystem where
  ReadDir _ := Except.ok [⟨"a.conf", false⟩, ⟨"b.conf", false⟩]
  ReadFile p := if p = "etc/a.conf" then Except.ok "from foo\nurl ^http://a/" else Except.ok "bogus"
  Join d n := d ++ "/" ++ n

/-- The entry a passwd line yields when it is kept: the first two
colon-separated fields of the trimmed line, when the line is neither blank nor
a comment, the username is non-empty and the hash field is 64 bytes long. -/
def entryOfLine (line : String) : Option UserEntry :=
  let line := Trim line " \t"
  if len line = 0 || firstIs line '#' then none
  else
    match Split line ':' with
    | username :: passwordHash :: _ =>
      if len username = 0 || len passwordHash ≠ PasswordHashLen then none
      else some ⟨username, passwordHash⟩
    | _ => none

/-- Whether every character is a hexadecimal digit. -/
def isHex (s : String) : Bool := s.data.all (fun c => (fromHexChar c).isSome)

/-! ## Reading `parseAcl` line by line -/

/-- Whether `parseAcl` skips a line: blank or a comment once leading spaces and
tabs are trimmed. -/
def skipped (l : String) : Bool :=
  len (TrimLeft l " \t") = 0 || firstIs (TrimLeft l " \t") '#'

/-- The tokens a line adds to `From`: those after a leading `from`. -/
def fromTokens (l : String) : List String :=
  if skipped l then []
  else
    match Fields (TrimLeft l " \t") with
    | w0 :: ws => if w0 = "from" then ws else []
    | [] => []

/-- Whether a line is a `url` line. -/
def isUrlLine (l : String) : Bool :=
  !skipped l && (Fields (TrimLeft l " \t")).head? = some "url"

/-- The lines that count, with leading spaces and tabs removed. -/
def significantLines (lines : List String) : List String :=
  (lines.filter (fun l => !skipped l)).map (fun l => TrimLeft l " \t")

/-- What one line does to the Acl under construction when the line is
accepted; `none` when `parseAcl` stops at it. -/
def lineOk (R : RegexpLib) (l : String) (aclConfig : Acl) : Option Acl :=
  if skipped l then some aclConfig
  else
    match Fields (TrimLeft l " \t") with
    | [] => none
    | w0 :: ws =>
      if w0 = "from" then some { aclConfig with From := aclConfig.From ++ ws }
      else if w0 = "url" then
        match parseAclEntry R (w0 :: ws) with
        | Result.ok newEntry =>
          some { aclConfig with Entries := aclConfig.Entries ++ [newEntry] }
        | _ => none
      else none

/-- Whether a line is a well-formed `url` line: 2 or 3 fields, the first
`url`, the last a pattern that compiles. -/
def wellFormedUrl (R : RegexpLib) (l : String) : Bool :=
  match Fields (TrimLeft l " \t") with
  | [w0, P] => w0 = "url" && (R.compileErr P).isNone
  | [w0, _, P] => w0 = "url" && (R.compileErr P).isNone
  | _ => false

/-- Whether a line is neither blank, nor a comment, nor a `from` line, nor a
well-formed `url` line. -/
def rejected (R : RegexpLib) (l : String) : Bool :=
  !skipped l && !((Fields (TrimLeft l " \t")).head? = some "from") && !wellFormedUrl R l

/-- Go `strings.Contains`, as a proposition. -/
def Contains (s sub : String) : Prop := ∃ a b, s = a ++ sub ++ b

/-! ## `signer.go`: canonical cache key -/

def signerVersion : String := ":inkfish1"

/-- Go `strings.IndexRune(s, r)`: the byte index of the first occurrence of an
ASCII character, `none` for the -1 result; `i` is the byte offset reached. -/
def indexRuneAux (r : Char) : List Char → Nat → Option Nat
  | [], _ => none
  | c :: cs, i => if c = r then some i else indexRuneAux r cs (i + (utf8EncodeChar c).length)

/-- Model of `strings.IndexRune`. -/
def IndexRune (s : String) (r : Char) : Option Nat := indexRuneAux r s.data 0

/-- The characters that end before byte offset `ix`: Go `s[:ix]` when `ix` falls
on a character boundary. -/
def takeBytes : List Char → Nat → List Char
  | [], _ => []
  | c :: cs, ix =>
    if (utf8EncodeChar c).length ≤ ix then c :: takeBytes cs (ix - (utf8EncodeChar c).length)
    else []

def stripPort (s : String) : String :=
  match IndexRune s ':' with
  | none => s
  | some ix => ⟨takeBytes s.data ix⟩

/-- Go `a <= b` on byte strings: bytewise lexicographic order. -/
def lexLe : List Nat → List Nat → Bool
  | [], _ => true
  | _ :: _, [] => false
  | x :: xs, y :: ys => x < y || (x = y && lexLe xs ys)

/-- The order `sort.Strings` sorts by. -/
def strLe (a b : String) : Prop := lexLe (bytes a) (bytes b) = true

instance strLe.decidable : DecidableRel strLe := fun a b =>
  inferInstanceAs (Decidable (lexLe (bytes a) (bytes b) = true))

/-- Model of `sort.Strings`: the ascending rearrangement of the slice. -/
def sortStrings (c : List String) : List String := List.insertionSort strLe c

/-- The bytes `hashSorted` writes to the hash: each string of the sorted copy
followed by a comma. -/
def hashInput (lst : List String) : List Nat :=
  let c := lst
  let c := sortStrings c
  c.flatMap (fun s => bytes (s ++ ","))

/-- Model of `hashSorted`, with the argument slice as explicit state: the first
component is the content of `lst` after the call (the sort runs on the copy
`c`), the second the digest. -/
def hashSorted (lst : List String) : List String × List Nat :=
  (lst, SHA256.Sum256 (hashInput lst))

/-! ## `signer.go`: certificates -/

/-- An IP address as `net.ParseIP` returns it. -/
abbrev IP := List Nat

/-- The fields of `pkix.Name` the signer sets. -/
structure PkixName where
  Organization : List String
  CommonName : String
  deriving DecidableEq, Repr

/-- A parsed `x509.Certificate`, as far as the signer reads it. -/
structure X509Certificate where
  Raw : List Nat
  Subject : PkixName
  deriving DecidableEq, Repr

/-- The certificate template `signHost` fills in. -/
structure Template where
  SerialNumber : Nat
  Issuer : PkixName
  Subject : PkixName
  NotBefore : Nat
  NotAfter : Nat
  KeyUsage : Nat
  ExtKeyUsage : List Nat
  BasicConstraintsValid : Bool
  IPAddresses : List IP
  DNSNames : List String
  deriving DecidableEq, Repr

/-- An RSA private key with its public part, both taken as opaque numbers. -/
structure RsaKey where
  PublicKey : Nat
  Secret : Nat
  deriving DecidableEq, Repr

/-- Model of `tls.Certificate`: the DER chain and the private key. -/
structure TlsCertificate where
  Certificate : List (List Nat)
  PrivateKey : RsaKey
  deriving DecidableEq, Repr

/-- The certificate cache: a map from digest to certificate, as an association
list in which a key occurs at most once. -/
abbrev CertCache := List (List Nat × TlsCertificate)

/-- Map lookup `cache[key]`. -/
def CertCache.find (cache : CertCache) (key : List Nat) : Option TlsCertificate :=
  match cache with
  | [] => none
  | (k, v) :: rest => if k = key then some v else CertCache.find rest key

/-- Map store `cache[key] = v`: a previous binding of the key is replaced. -/
def CertCache.store (cache : CertCache) (key : List Nat) (v : TlsCertificate) : CertCache :=
  (key, v) :: cache.filter (fun kv => kv.1 ≠ key)

/-- The signer state: the CA and the cache (the lock and the TLS configuration
play no part in a sequential run). -/
structure CertSigner where
  CA : TlsCertificate
  CertCache : CertCache
  deriving DecidableEq, Repr

/-- The libraries `signHost` calls, over a world `σ` that holds the entropy
source: parsing is a function of its input; reading random bytes, generating a
key and signing consume the world and may fail. -/
structure Oracle (σ : Type) where
  ParseCertificate : List Nat → Except String X509Certificate
  ParseIP : String → Option IP
  randRead : Nat → σ → Except String (List Nat) × σ
  GenerateKey : Nat → σ → Except String RsaKey × σ
  CreateCertificate : Template → X509Certificate → Nat → RsaKey → σ →
    Except String (List Nat) × σ

def KeyUsageDigitalSignature : Nat := 1
def KeyUsageKeyEncipherment : Nat := 4
def ExtKeyUsageServerAuth : Nat := 1

/-- `big.Int.SetBytes`: the big-endian value of a byte slice. -/
def setBytes (bs : List Nat) : Nat := bs.foldl (fun acc b => acc * 256 + b) 0

/-- The loop over `hosts` that fills the names of the template. -/
def templateLoop {σ : Type} (O : Oracle σ) : List String → Template → Template
  | [], template => template
  | h :: rest, template =>
    match O.ParseIP h with
    | some ip =>
      templateLoop O rest { template with IPAddresses := template.IPAddresses ++ [ip] }
    | none =>
      templateLoop O rest
        { template with
          DNSNames := template.DNSNames ++ [h]
          Subject := { template.Subject with CommonName := h } }

/-- The template `signHost` builds from the serial, the CA and the hosts. -/
def buildTemplate {σ : Type} (O : Oracle σ) (serial : Nat) (x509ca : X509Certificate)
    (hosts : List String) : Template :=
  let template : Template :=
    { SerialNumber := serial
      Issuer := x509ca.Subject
      Subject := { Organization := ["Inkfish MITM Proxy"], CommonName := "" }
      NotBefore := 0
      NotAfter := 2524521600
      KeyUsage := KeyUsageKeyEncipherment ||| KeyUsageDigitalSignature
      ExtKeyUsage := [ExtKeyUsageServerAuth]
      BasicConstraintsValid := true
      IPAddresses := []
      DNSNames := [] }
  templateLoop O hosts template

/-- Model of `CertSigner.signHost`: returns the outcome, the signer state and
the world after the call. -/
def signHost {σ : Type} (O : Oracle σ) (certSigner : CertSigner) (hosts : List String)
    (w : σ) : Result TlsCertificate × CertSigner × σ :=
  let hash := (hashSorted (hosts ++ [signerVersion])).2
  match certSigner.CertCache.find hash with
  | some cachedCert => (Result.ok cachedCert, certSigner, w)
  | none =>
    match index certSigner.CA.Certificate 0 with
    | Result.panic => (Result.panic, certSigner, w)
    | Result.error e => (Result.error e, certSigner, w)
    | Result.ok caDer =>
      match O.ParseCertificate caDer with
      | Except.error e => (Result.error e, certSigner, w)
      | Except.ok x509ca =>
        match O.randRead 20 w with
        | (Except.error _, w1) => (Result.panic, certSigner, w1)
        | (Except.ok randomSerial, w1) =>
          let serial := setBytes randomSerial
          let template := buildTemplate O serial x509ca hosts
          match O.GenerateKey 2048 w1 with
          | (Except.error e, w2) => (Result.error e, certSigner, w2)
          | (Except.ok certpriv, w2) =>
            match O.CreateCertificate template x509ca certpriv.PublicKey
                certSigner.CA.PrivateKey w2 with
            | (Except.error e, w3) => (Result.error e, certSigner, w3)
            | (Except.ok derBytes, w3) =>
              let leafCert : TlsCertificate :=
                { Certificate := [derBytes, caDer], PrivateKey := certpriv }
              (Result.ok leafCert,
                { certSigner with CertCache := certSigner.CertCache.store hash leafCert }, w3)

/-! ## Fixtures and helpers for the directory load and the signer -/

/-- A directory with two valid `.conf` files, a sub-directory and a file with
another extension. -/
def twoConfFS : FileSystem where
  ReadDir _ := Except.ok [⟨"a.conf", false⟩, ⟨"sub.conf", true⟩, ⟨"b.conf", false⟩,
    ⟨"README", false⟩]
  ReadFile p :=
    if p = "etc/a.conf" then Except.ok "from foo\nurl ^http://a/"
    else if p = "etc/b.conf" then Except.ok "from bar\nurl GET ^http://b/"
    else Except.ok "notes"
  Join d n := d ++ "/" ++ n

/-- A directory with a valid `.conf` file and a `.passwd` file holding a line
without a colon. -/
def badPasswdFS : FileSystem where
  ReadDir _ := Except.ok [⟨"a.conf", false⟩, ⟨"users.passwd", false⟩]
  ReadFile p :=
    if p = "etc/a.conf" then Except.ok "from foo\nurl ^http://a/"
    else Except.ok "bob"
  Join d n := d ++ "/" ++ n

/-- Whether a directory entry is a file with extension `.conf`. -/
def isConf (fi : FileInfo) : Bool := !fi.IsDir && Ext fi.Name = ".conf"

/-- Whether a directory entry is a file with extension `.passwd`. -/
def isPasswd (fi : FileInfo) : Bool := !fi.IsDir && !(Ext fi.Name = ".conf") &&
  Ext fi.Name = ".passwd"

/-- Whether a hostname does not parse as an IP literal. -/
def notIP {σ : Type} (O : Oracle σ) (h : String) : Bool := (O.ParseIP h).isNone

/-- An oracle over a counter: random bytes repeat the counter, keys and
signatures are numbered by it; `1.2.3.4` is the only IP literal. -/
def testOracle : Oracle Nat where
  ParseCertificate der := Except.ok ⟨der, ⟨["Test CA"], "ca"⟩⟩
  ParseIP h := if h = "1.2.3.4" then some [1, 2, 3, 4] else none
  randRead n w := (Except.ok (List.replicate n w), w + 1)
  GenerateKey _ w := (Except.ok ⟨w, w + 1000⟩, w + 1)
  CreateCertificate t _ pub _ w := (Except.ok [t.SerialNumber % 256, pub, w], w + 1)

/-- An oracle whose key generation fails. -/
def failingOracle : Oracle Nat where
  ParseCertificate der := Except.ok ⟨der, ⟨["Test CA"], "ca"⟩⟩
  ParseIP _ := none
  randRead n w := (Except.ok (List.replicate n w), w + 1)
  GenerateKey _ w := (Except.error "no entropy", w + 1)
  CreateCertificate _ _ _ _ w := (Except.error "unreachable", w)

/-- A signer with an empty cache. -/
def testSigner : CertSigner := ⟨⟨[[48, 130]], ⟨7, 11⟩⟩, []⟩

/-- The byte length of a list of characters. -/
def byteLen (cs : List Char) : Nat := (cs.flatMap utf8EncodeChar).length

/-! ## What a listing contributes; further fixtures -/

/-- The Acls the `.conf` files of a listing contribute, in listing order: for
each file with extension `.conf`, the Acl its content parses to. -/
def confAcls (R : RegexpLib) (fs : FileSystem) (configDir : String)
    (files : List FileInfo) : List Acl :=
  files.filterMap (fun fi =>
    if isConf fi then
      match fs.ReadFile (fs.Join configDir fi.Name) with
      | Except.ok data =>
        match loadAclFromFile R data with
        | Result.ok acl => some acl
        | _ => none
      | Except.error _ => none
    else none)

/-- The UserEntries the `.passwd` files of a listing contribute, in listing
order: for each file with extension `.passwd`, the records it holds. -/
def passwdUsers (fs : FileSystem) (configDir : String) (files : List FileInfo) :
    List UserEntry :=
  files.flatMap (fun fi =>
    if isPasswd fi then
      match fs.ReadFile (fs.Join configDir fi.Name) with
      | Except.ok data =>
        match loadUsersFromFile data with
        | Result.ok userRecords => userRecords
        | _ => []
      | Except.error _ => []
    else [])

/-- A directory with a `.passwd` file, a valid `.conf` file and a `.conf`
file that does not parse. -/
def brokenAfterPasswdFS : FileSystem where
  ReadDir _ := Except.ok [⟨"users.passwd", false⟩, ⟨"a.conf", false⟩, ⟨"b.conf", false⟩]
  ReadFile p :=
    if p = "etc/users.passwd" then Except.ok ("foo:" ++ fooHash)
    else if p = "etc/a.conf" then Except.ok "from foo\nurl ^http://a/"
    else Except.ok "bogus"
  Join d n := d ++ "/" ++ n

/-- An oracle whose signature spells out the names of the template it is
given: the DNS names, the IP addresses and the common name; `1.2.3.4` is the
only IP literal. -/
def namingOracle : Oracle Nat where
  ParseCertificate der := Except.ok ⟨der, ⟨["Test CA"], "ca"⟩⟩
  ParseIP h := if h = "1.2.3.4" then some [1, 2, 3, 4] else none
  randRead n w := (Except.ok (List.replicate n w), w + 1)
  GenerateKey _ w := (Except.ok ⟨w, w + 1000⟩, w + 1)
  CreateCertificate t _ _ _ w :=
    (Except.ok (t.DNSNames.flatMap bytes ++ [0] ++ t.IPAddresses.flatten ++ [0] ++
      bytes t.Subject.CommonName), w + 1)

/-- A line made up of spaces and tabs only (the empty line included). -/
def SpaceTabOnly (l : String) : Prop := ∀ c ∈ l.data, c = ' ' ∨ c = '\t'

/-- A line whose first character after leading spaces and tabs is `#`. -/
def CommentLine (l : String) : Prop :=
  ∃ ws rest, l.data = ws ++ '#' :: rest ∧ ∀ c ∈ ws, c = ' ' ∨ c = '\t'

/-! ## Lemmas: AclEngine -/

theorem listContainsString_iff (xs : List String) (needle : String) :
    listContainsString xs needle = true ↔ needle ∈ xs := by
  induction xs with
  | nil => simp [listContainsString]
  | cons s rest ih =>
    unfold listContainsString
    by_cases h : s = needle
    · simp [h]
    · simp [h, ih, Ne.symm h]

theorem permitsEntries_iff (R : RegexpLib) (es : List AclEntry) (method url : String) :
    Acl.permitsEntries R es method url = true ↔
      ∃ e ∈ es, (e.AllMethods = true ∨ method ∈ e.Methods) ∧
        R.matchString e.Pattern.source url = true := by
  induction es with
  | nil => simp [Acl.permitsEntries]
  | cons e rest ih =>
    unfold Acl.permitsEntries
    rw [List.exists_mem_cons_iff]
    by_cases hm : (e.AllMethods || listContainsString e.Methods method) = true
    · have hm' : e.AllMethods = true ∨ method ∈ e.Methods := by
        simpa [listContainsString_iff] using hm
      by_cases hp : e.Pattern.MatchString R url = true
      · rw [if_pos hm, if_pos hp]
        exact ⟨fun _ => Or.inl ⟨hm', hp⟩, fun _ => rfl⟩
      · rw [if_pos hm, if_neg hp, ih]
        constructor
        · intro h; exact Or.inr h
        · rintro (⟨_, h⟩ | h)
          · exact absurd h hp
          · exact h
    · rw [if_neg hm, ih]
      constructor
      · intro h; exact Or.inr h
      · rintro (⟨h, _⟩ | h)
        · exact absurd (by simpa [listContainsString_iff] using h) hm
        · exact h

theorem Acl.Permits_iff (R : RegexpLib) (c : Acl) (frm method url : String) :
    c.Permits R frm method url = true ↔
      frm ∈ c.From ∧ ∃ e ∈ c.Entries, (e.AllMethods = true ∨ method ∈ e.Methods) ∧
        R.matchString e.Pattern.source url = true := by
  unfold Acl.Permits
  by_cases h : listContainsString c.From frm = true
  · have h' := (listContainsString_iff _ _).1 h
    simp [h, h', permitsEntries_iff]
  · have h' : frm ∉ c.From := fun hm => h ((listContainsString_iff _ _).2 hm)
    simp [h, h']

theorem permitsAcls_iff (R : RegexpLib) (acls : List Acl) (frm method url : String) :
    permitsAcls R acls frm method url = true ↔
      ∃ a ∈ acls, a.Permits R frm method url = true := by
  induction acls with
  | nil => simp [permitsAcls]
  | cons a rest ih =>
    unfold permitsAcls
    by_cases h : a.Permits R frm method url = true
    · simp [h]
    · simp [h, ih]

/-! ## Lemmas: CredentialStore -/

theorem ConstantTimeCompare_eq_one (x y : List Nat) :
    ConstantTimeCompare x y = 1 ↔ x = y := by
  unfold ConstantTimeCompare
  by_cases h : x = y <;> simp [h]

theorem credentialsLoop_true (h : List Nat) (es : List UserEntry) (user : String) :
    credentialsLoop h es user = true →
      ∃ e ∈ es, e.Username = user ∧ DecodeString e.PasswordHash = some h := by
  induction es with
  | nil => intro hc; simp [credentialsLoop] at hc
  | cons ent rest ih =>
    intro hc
    unfold credentialsLoop at hc
    by_cases hu : ent.Username = user
    · rw [if_pos hu] at hc
      cases hd : DecodeString ent.PasswordHash with
      | none => rw [hd] at hc; simp at hc
      | some actualPw =>
        rw [hd] at hc
        by_cases hcmp : ConstantTimeCompare h actualPw = 1
        · have heq := (ConstantTimeCompare_eq_one _ _).1 hcmp
          exact ⟨ent, List.mem_cons_self _ _, hu, by rw [hd, heq]⟩
        · simp only [hcmp, if_false] at hc
          obtain ⟨e, he, h1, h2⟩ := ih hc
          exact ⟨e, List.mem_cons_of_mem _ he, h1, h2⟩
    · rw [if_neg hu] at hc
      obtain ⟨e, he, h1, h2⟩ := ih hc
      exact ⟨e, List.mem_cons_of_mem _ he, h1, h2⟩

/-- The scan reaches a matching entry when every earlier entry of the user
decodes. -/
theorem credentialsLoop_of_match (h : List Nat) (pre post : List UserEntry) (ent : UserEntry)
    (user : String) (hu : ent.Username = user) (hd : DecodeString ent.PasswordHash = some h)
    (hpre : ∀ e ∈ pre, e.Username = user → DecodeString e.PasswordHash ≠ none) :
    credentialsLoop h (pre ++ ent :: post) user = true := by
  induction pre with
  | nil =>
    simp only [List.nil_append]
    unfold credentialsLoop
    rw [if_pos hu, hd]
    simp [ConstantTimeCompare]
  | cons e rest ih =>
    have ih' := ih (fun x hx => hpre x (List.mem_cons_of_mem _ hx))
    simp only [List.cons_append]
    unfold credentialsLoop
    by_cases hue : e.Username = user
    · rw [if_pos hue]
      cases hde : DecodeString e.PasswordHash with
      | none => exact absurd hde (hpre e (List.mem_cons_self _ _) hue)
      | some actualPw =>
        by_cases hcmp : ConstantTimeCompare h actualPw = 1
        · simp [hcmp]
        · simp only [hcmp, if_false]; exact ih'
    · rw [if_neg hue]; exact ih'

/-! ## Lemmas: indexing -/

theorem index_zero_cons {α : Type} (x : α) (xs : List α) : index (x :: xs) 0 = Result.ok x := rfl
theorem index_one_cons {α : Type} (x y : α) (xs : List α) :
    index (x :: y :: xs) 1 = Result.ok y := rfl
theorem index_one_single {α : Type} (x : α) : index [x] 1 = Result.panic := rfl
theorem index_nil {α : Type} (i : Nat) : index ([] : List α) i = Result.panic := rfl

/-! ## Lemmas: passwd files -/

theorem loadUsersLoop_cons_ok (line : String) (rest : List String)
    (acc entries : List UserEntry)
    (h : loadUsersLoop (line :: rest) acc = Result.ok entries) :
    loadUsersLoop rest (acc ++ (entryOfLine line).toList) = Result.ok entries := by
  unfold loadUsersLoop at h
  unfold entryOfLine
  simp only at h ⊢
  by_cases hskip : (len (Trim line " \t") = 0 || firstIs (Trim line " \t") '#') = true
  · rw [if_pos hskip] at h ⊢
    simpa using h
  · rw [if_neg hskip] at h ⊢
    rcases hs : Split (Trim line " \t") ':' with _ | ⟨u, _ | ⟨p, tl⟩⟩
    · rw [hs] at h; simp [index_nil] at h
    · rw [hs] at h; simp [index_zero_cons, index_one_single] at h
    · rw [hs] at h
      simp only [index_zero_cons, index_one_cons] at h ⊢
      by_cases hbad : (len u = 0 || len p ≠ PasswordHashLen) = true
      · rw [if_pos hbad] at h ⊢
        simpa using h
      · rw [if_neg hbad] at h ⊢
        simpa using h

theorem loadUsersLoop_ok (lines : List String) (acc entries : List UserEntry)
    (h : loadUsersLoop lines acc = Result.ok entries) :
    entries = acc ++ lines.filterMap entryOfLine := by
  induction lines generalizing acc with
  | nil =>
    simp only [loadUsersLoop, Result.ok.injEq] at h
    simp [h]
  | cons line rest ih =>
    have h2 := ih _ (loadUsersLoop_cons_ok line rest acc entries h)
    rw [h2, List.filterMap_cons]
    cases entryOfLine line <;> simp

theorem entryOfLine_some (line : String) (e : UserEntry) (h : entryOfLine line = some e) :
    e.Username ≠ "" ∧ len e.PasswordHash = PasswordHashLen := by
  unfold entryOfLine at h
  simp only at h
  split_ifs at h
  split at h
  · split_ifs at h with hbad
    simp only [Option.some.injEq] at h
    subst h
    simp only [Bool.or_eq_true, decide_eq_true_eq, not_or, not_not] at hbad
    refine ⟨?_, hbad.2⟩
    intro hu
    apply hbad.1
    simp only at hu
    rw [hu]; rfl
  · simp at h

theorem entryOfLine_len (line : String) (e : UserEntry) (h : entryOfLine line = some e) :
    len e.Username ≠ 0 := by
  intro h0
  have := (entryOfLine_some line e h).1
  unfold entryOfLine at h
  simp only at h
  split_ifs at h
  split at h
  · split_ifs at h with hbad
    simp only [Option.some.injEq] at h
    subst h
    simp only [Bool.or_eq_true, decide_eq_true_eq, not_or] at hbad
    exact hbad.1 h0
  · simp at h

/-! ## Lemmas: directory load -/

theorem loadFiles_cons (R : RegexpLib) (fs : FileSystem) (dir : String) (fi : FileInfo)
    (rest : List FileInfo) (proxy : Store) :
    loadFiles R fs dir (fi :: rest) proxy =
      match loadFiles R fs dir [fi] proxy with
      | (p, Result.ok ()) => loadFiles R fs dir rest p
      | r => r := by
  simp only [loadFiles]
  split_ifs <;> (try split) <;> (try split) <;> simp_all

theorem loadFiles_single_extends (R : RegexpLib) (fs : FileSystem) (dir : String)
    (fi : FileInfo) (proxy : Store) :
    ∃ acls users, (loadFiles R fs dir [fi] proxy).1 =
        ⟨proxy.Acls ++ acls, proxy.Passwd ++ users⟩ := by
  simp only [loadFiles]
  split_ifs <;> (try split) <;> (try split) <;>
    first
    | (refine ⟨[], [], ?_⟩; simp; done)
    | (rename_i acl _; refine ⟨[acl], [], ?_⟩; simp)
    | (rename_i users _; refine ⟨[], users, ?_⟩; simp)

theorem loadFiles_single_failed (R : RegexpLib) (fs : FileSystem) (dir : String)
    (fi : FileInfo) (proxy : Store)
    (h : (loadFiles R fs dir [fi] proxy).2 ≠ Result.ok ()) :
    (loadFiles R fs dir [fi] proxy).1 = proxy := by
  simp only [loadFiles] at h ⊢
  split_ifs at h ⊢ <;> (try split at h) <;> (try split at h) <;> simp_all

theorem loadFiles_extends (R : RegexpLib) (fs : FileSystem) (dir : String)
    (files : List FileInfo) (proxy : Store) :
    ∃ acls users, (loadFiles R fs dir files proxy).1 =
        ⟨proxy.Acls ++ acls, proxy.Passwd ++ users⟩ := by
  induction files generalizing proxy with
  | nil => exact ⟨[], [], by simp [loadFiles]⟩
  | cons fi rest ih =>
    rw [loadFiles_cons]
    obtain ⟨a1, u1, h1⟩ := loadFiles_single_extends R fs dir fi proxy
    rcases hstep : loadFiles R fs dir [fi] proxy with ⟨p, r⟩
    rw [hstep] at h1
    cases r with
    | ok u =>
      obtain ⟨a2, u2, h2⟩ := ih p
      refine ⟨a1 ++ a2, u1 ++ u2, ?_⟩
      simp only at h1 ⊢
      rw [h2, h1]
      simp
    | error e => exact ⟨a1, u1, h1⟩
    | panic => exact ⟨a1, u1, h1⟩

/-- A failed load stopped at one file: the files before it loaded, and the
store is what they left. -/
theorem loadFiles_error (R : RegexpLib) (fs : FileSystem) (dir : String)
    (files : List FileInfo) (proxy proxy' : Store) (msg : String)
    (h : loadFiles R fs dir files proxy = (proxy', Result.error msg)) :
    ∃ pre fi post, files = pre ++ fi :: post ∧
      loadFiles R fs dir pre proxy = (proxy', Result.ok ()) ∧
      loadFiles R fs dir [fi] proxy' = (proxy', Result.error msg) := by
  induction files generalizing proxy with
  | nil => simp [loadFiles] at h
  | cons fi rest ih =>
    rw [loadFiles_cons] at h
    rcases hstep : loadFiles R fs dir [fi] proxy with ⟨p, r⟩
    rw [hstep] at h
    cases r with
    | ok u =>
      obtain ⟨pre, f, post, hfiles, hpre, hf⟩ := ih p h
      refine ⟨fi :: pre, f, post, by rw [hfiles]; rfl, ?_, hf⟩
      rw [loadFiles_cons, hstep]
      exact hpre
    | error e =>
      simp only [Prod.mk.injEq, Result.error.injEq] at h
      obtain ⟨hp, he⟩ := h
      have hfail := loadFiles_single_failed R fs dir fi proxy (by rw [hstep]; simp)
      rw [hstep] at hfail
      simp only at hfail
      subst hp; subst he
      refine ⟨[], fi, rest, rfl, ?_, ?_⟩
      · rw [hfail]; rfl
      · rw [hfail]; rw [hfail] at hstep; exact hstep
    | panic => simp at h

/-! ## Lemmas: `parseAclEntry` -/

theorem splitAux_ne_nil (sep : Char) (cs cur : List Char) : splitAux sep cs cur ≠ [] := by
  induction cs generalizing cur with
  | nil => simp [splitAux]
  | cons c rest ih =>
    unfold splitAux
    split_ifs
    · simp
    · exact ih _

theorem Split_ne_nil (s : String) (sep : Char) : Split s sep ≠ [] :=
  splitAux_ne_nil sep s.data []

theorem finishAclEntry_ok (R : RegexpLib) (am : Bool) (ms : List String) (P : String)
    (hc : R.compileErr P = none) :
    finishAclEntry R am ms P = Result.ok ⟨am, ms, ⟨P⟩⟩ := by
  simp [finishAclEntry, RegexpLib.Compile, hc]

theorem finishAclEntry_error (R : RegexpLib) (am : Bool) (ms : List String) (P e : String)
    (hc : R.compileErr P = some e) :
    finishAclEntry R am ms P = Result.error (wrap e "failed to parse url pattern") := by
  simp [finishAclEntry, RegexpLib.Compile, hc]

theorem finishAclEntry_ne_panic (R : RegexpLib) (am : Bool) (ms : List String) (P : String) :
    finishAclEntry R am ms P ≠ Result.panic := by
  cases hc : R.compileErr P with
  | none => simp [finishAclEntry_ok R am ms P hc]
  | some e => simp [finishAclEntry_error R am ms P e hc]

theorem parseAclEntry_two (R : RegexpLib) (w0 P : String) :
    parseAclEntry R [w0, P] =
      if w0 ≠ "url" then Result.error "expecting entry to start with \x27url\x27"
      else finishAclEntry R true [] P := by
  simp [parseAclEntry, index]

theorem parseAclEntry_three (R : RegexpLib) (w0 w1 P : String) :
    parseAclEntry R [w0, w1, P] =
      if w0 ≠ "url" then Result.error "expecting entry to start with \x27url\x27"
      else finishAclEntry R false (Split w1 ',') P := by
  simp [parseAclEntry, index]

theorem parseAclEntry_bad_length (R : RegexpLib) (words : List String)
    (h : words.length ≠ 2 ∧ words.length ≠ 3) :
    parseAclEntry R words = Result.error "wrong number of fields (expecting 2 or 3)" := by
  unfold parseAclEntry
  rw [if_pos h]

theorem parseAclEntry_ne_panic (R : RegexpLib) (words : List String) :
    parseAclEntry R words ≠ Result.panic := by
  by_cases hlen : words.length ≠ 2 ∧ words.length ≠ 3
  · rw [parseAclEntry_bad_length R words hlen]
    simp
  · have hlen' : words.length = 2 ∨ words.length = 3 := by omega
    rcases hlen' with h2 | h3
    · match words, h2 with
      | [w0, p], _ =>
        rw [parseAclEntry_two]
        split_ifs
        · simp
        · exact finishAclEntry_ne_panic _ _ _ _
    · match words, h3 with
      | [w0, w1, p], _ =>
        rw [parseAclEntry_three]
        split_ifs
        · simp
        · exact finishAclEntry_ne_panic _ _ _ _

/-! ## Lemmas: `parseAcl` -/

theorem parseAclLoop_cons_ok (R : RegexpLib) (l : String) (rest : List String) (n : Nat)
    (acl a : Acl) :
    parseAclLoop R (l :: rest) n acl = Result.ok a ↔
      ∃ acl1, lineOk R l acl = some acl1 ∧ parseAclLoop R rest (n + 1) acl1 = Result.ok a := by
  rw [parseAclLoop]
  unfold lineOk skipped
  simp only
  by_cases hs : (len (TrimLeft l " \t") = 0 || firstIs (TrimLeft l " \t") '#') = true
  · rw [if_pos hs, if_pos hs]; simp
  · rw [if_neg hs, if_neg hs]
    rcases hf : Fields (TrimLeft l " \t") with _ | ⟨w0, ws⟩
    · simp [index_nil]
    · simp only [index_zero_cons, List.drop_succ_cons, List.drop_zero]
      by_cases h1 : w0 = "from"
      · rw [if_pos h1, if_pos h1]; simp
      · rw [if_neg h1, if_neg h1]
        by_cases h2 : w0 = "url"
        · rw [if_pos h2, if_pos h2]
          cases parseAclEntry R (w0 :: ws) <;> simp
        · rw [if_neg h2, if_neg h2]; simp

theorem TrimLeft_idem (l cutset : String) :
    TrimLeft (TrimLeft l cutset) cutset = TrimLeft l cutset := by
  simp [TrimLeft, List.dropWhile_idempotent]

theorem skipped_TrimLeft (l : String) : skipped (TrimLeft l " \t") = skipped l := by
  simp [skipped, TrimLeft_idem]

theorem lineOk_TrimLeft (R : RegexpLib) (l : String) (acl : Acl) :
    lineOk R (TrimLeft l " \t") acl = lineOk R l acl := by
  simp [lineOk, TrimLeft_idem, skipped_TrimLeft]

theorem lineOk_skipped (R : RegexpLib) (l : String) (acl : Acl) (h : skipped l = true) :
    lineOk R l acl = some acl := by
  simp [lineOk, h]

/-- The successful runs of the loop are those of the loop on the significant
lines, whatever the line numbers. -/
theorem parseAclLoop_ok_significant (R : RegexpLib) (lines : List String) (n m : Nat)
    (acl a : Acl) :
    parseAclLoop R lines n acl = Result.ok a ↔
      parseAclLoop R (significantLines lines) m acl = Result.ok a := by
  induction lines generalizing n m acl with
  | nil => simp [significantLines, parseAclLoop]
  | cons l rest ih =>
    rw [parseAclLoop_cons_ok]
    by_cases hs : skipped l = true
    · have : significantLines (l :: rest) = significantLines rest := by
        simp [significantLines, hs]
      rw [this, lineOk_skipped R l acl hs]
      simp only [Option.some.injEq, exists_eq_left']
      exact ih (n + 1) m acl
    · have : significantLines (l :: rest) = TrimLeft l " \t" :: significantLines rest := by
        simp [significantLines, hs]
      rw [this, parseAclLoop_cons_ok, lineOk_TrimLeft]
      constructor
      · rintro ⟨acl1, h1, h2⟩
        exact ⟨acl1, h1, (ih (n + 1) (m + 1) acl1).1 h2⟩
      · rintro ⟨acl1, h1, h2⟩
        exact ⟨acl1, h1, (ih (n + 1) (m + 1) acl1).2 h2⟩

theorem lineOk_effect (R : RegexpLib) (l : String) (acl acl1 : Acl)
    (h : lineOk R l acl = some acl1) :
    acl1.From = acl.From ++ fromTokens l ∧
    acl1.Entries.map Result.ok = acl.Entries.map Result.ok ++
      (if isUrlLine l then [parseAclEntry R (Fields (TrimLeft l " \t"))] else []) := by
  unfold lineOk at h
  unfold fromTokens isUrlLine
  by_cases hs : skipped l = true
  · rw [if_pos hs] at h
    simp only [Option.some.injEq] at h
    subst h
    simp [hs]
  · rw [if_neg hs] at h
    rcases hf : Fields (TrimLeft l " \t") with _ | ⟨w0, ws⟩
    · rw [hf] at h; simp at h
    · rw [hf] at h
      simp only at h
      by_cases h1 : w0 = "from"
      · rw [if_pos h1] at h
        simp only [Option.some.injEq] at h
        subst h
        subst h1
        simp [hs]
      · rw [if_neg h1] at h
        by_cases h2 : w0 = "url"
        · rw [if_pos h2] at h
          cases hp : parseAclEntry R (w0 :: ws) with
          | ok e =>
            rw [hp] at h
            simp only [Option.some.injEq] at h
            subst h
            simp [hs, h1, h2]
          | error e => rw [hp] at h; simp at h
          | panic => rw [hp] at h; simp at h
        · rw [if_neg h2] at h; simp at h

theorem parseAclLoop_ok_effect (R : RegexpLib) (lines : List String) (n : Nat) (acl a : Acl)
    (h : parseAclLoop R lines n acl = Result.ok a) :
    a.From = acl.From ++ lines.flatMap fromTokens ∧
    a.Entries.map Result.ok = acl.Entries.map Result.ok ++
      (lines.filter isUrlLine).map (fun l => parseAclEntry R (Fields (TrimLeft l " \t"))) := by
  induction lines generalizing n acl with
  | nil =>
    simp only [parseAclLoop, Result.ok.injEq] at h
    subst h
    simp
  | cons l rest ih =>
    obtain ⟨acl1, h1, h2⟩ := (parseAclLoop_cons_ok R l rest n acl a).1 h
    obtain ⟨e1, e2⟩ := lineOk_effect R l acl acl1 h1
    obtain ⟨i1, i2⟩ := ih (n + 1) acl1 h2
    refine ⟨?_, ?_⟩
    · rw [i1, e1]; simp
    · rw [i2, e2]
      by_cases hu : isUrlLine l = true
      · simp [hu]
      · simp [hu]

theorem significantLines_idem (lines : List String) :
    significantLines (significantLines lines) = significantLines lines := by
  induction lines with
  | nil => rfl
  | cons l rest ih =>
    by_cases hs : skipped l = true
    · have : significantLines (l :: rest) = significantLines rest := by
        simp [significantLines, hs]
      rw [this, ih]
    · have h1 : significantLines (l :: rest) = TrimLeft l " \t" :: significantLines rest := by
        simp [significantLines, hs]
      have h2 : ∀ xs, significantLines (TrimLeft l " \t" :: xs) =
          TrimLeft l " \t" :: significantLines xs := by
        intro xs
        simp [significantLines, skipped_TrimLeft, hs, TrimLeft_idem]
      rw [h1, h2, ih]

theorem significantLines_filter (lines : List String) :
    significantLines (lines.filter (fun l => !skipped l)) = significantLines lines := by
  simp [significantLines, List.filter_filter]

theorem significantLines_map (lines : List String) :
    significantLines (lines.map (fun l => TrimLeft l " \t")) = significantLines lines := by
  induction lines with
  | nil => rfl
  | cons l rest ih =>
    by_cases hs : skipped l = true
    · simp only [significantLines, List.map_cons] at ih ⊢
      simp [skipped_TrimLeft, hs, ih]
    · simp only [significantLines, List.map_cons] at ih ⊢
      simp [skipped_TrimLeft, hs, ih, TrimLeft_idem]

theorem parseAclLoop_cons_of_lineOk (R : RegexpLib) (l : String) (rest : List String)
    (n : Nat) (acl acl1 : Acl) (h : lineOk R l acl = some acl1) :
    parseAclLoop R (l :: rest) n acl = parseAclLoop R rest (n + 1) acl1 := by
  rw [parseAclLoop]
  unfold lineOk skipped at h
  simp only at h ⊢
  by_cases hs : (len (TrimLeft l " \t") = 0 || firstIs (TrimLeft l " \t") '#') = true
  · rw [if_pos hs] at h ⊢
    simp only [Option.some.injEq] at h
    rw [h]
  · rw [if_neg hs] at h ⊢
    rcases hf : Fields (TrimLeft l " \t") with _ | ⟨w0, ws⟩
    · rw [hf] at h; simp at h
    · rw [hf] at h
      simp only [index_zero_cons, List.drop_succ_cons, List.drop_zero] at h ⊢
      by_cases h1 : w0 = "from"
      · rw [if_pos h1] at h ⊢
        simp only [Option.some.injEq] at h
        rw [h]
      · rw [if_neg h1] at h ⊢
        by_cases h2 : w0 = "url"
        · rw [if_pos h2] at h ⊢
          cases hp : parseAclEntry R (w0 :: ws) with
          | ok e =>
            rw [hp] at h
            simp only [Option.some.injEq] at h
            simp only
            rw [h]
          | error e => rw [hp] at h; simp at h
          | panic => rw [hp] at h; simp at h
        · rw [if_neg h2] at h; simp at h

theorem parseAclLoop_cons_of_none (R : RegexpLib) (l : String) (rest : List String)
    (n : Nat) (acl : Acl) (h : lineOk R l acl = none) :
    (Fields (TrimLeft l " \t") = [] → parseAclLoop R (l :: rest) n acl = Result.panic) ∧
    (Fields (TrimLeft l " \t") ≠ [] → ∃ msg, parseAclLoop R (l :: rest) n acl = Result.error msg ∧
      Contains msg ("line: " ++ toString (n + 1))) := by
  rw [parseAclLoop]
  unfold lineOk skipped at h
  simp only at h ⊢
  by_cases hs : (len (TrimLeft l " \t") = 0 || firstIs (TrimLeft l " \t") '#') = true
  · rw [if_pos hs] at h; simp at h
  · rw [if_neg hs] at h ⊢
    rcases hf : Fields (TrimLeft l " \t") with _ | ⟨w0, ws⟩
    · simp [index_nil]
    · rw [hf] at h
      simp only [index_zero_cons, List.drop_succ_cons, List.drop_zero] at h ⊢
      refine ⟨fun hx => absurd hx (by simp), fun _ => ?_⟩
      by_cases h1 : w0 = "from"
      · rw [if_pos h1] at h; simp at h
      · rw [if_neg h1] at h ⊢
        by_cases h2 : w0 = "url"
        · rw [if_pos h2] at h ⊢
          cases hp : parseAclEntry R (w0 :: ws) with
          | ok e => rw [hp] at h; simp at h
          | error e =>
            refine ⟨_, rfl, "config error at ", ": " ++ e, ?_⟩
            simp only [wrap, String.append_assoc]
            rw [← String.append_assoc "config error at " "line: "]
            rfl
          | panic => exact absurd hp (parseAclEntry_ne_panic R (w0 :: ws))
        · rw [if_neg h2]
          refine ⟨_, rfl, "unknown directive at ", "", ?_⟩
          simp only [String.append_assoc, String.append_empty]
          rw [← String.append_assoc "unknown directive at " "line: "]
          rfl

theorem lineOk_eq_none_iff (R : RegexpLib) (l : String) (acl : Acl) :
    lineOk R l acl = none ↔ rejected R l = true := by
  unfold lineOk rejected wellFormedUrl
  by_cases hs : skipped l = true
  · simp [hs]
  · rw [if_neg hs]
    simp only [Bool.not_eq_true] at hs
    rcases hf : Fields (TrimLeft l " \t") with _ | ⟨w0, ws⟩
    · simp [hs]
    · by_cases h1 : w0 = "from"
      · simp [h1]
      · by_cases h2 : w0 = "url"
        · subst h2
          rcases ws with _ | ⟨a, _ | ⟨b, _ | ⟨c, tl⟩⟩⟩
          · simp [hs, parseAclEntry_bad_length]
          · cases hc : R.compileErr a with
            | none => simp [hs, parseAclEntry_two, finishAclEntry_ok R _ _ _ hc, hc]
            | some e => simp [hs, parseAclEntry_two, finishAclEntry_error R _ _ _ e hc, hc]
          · cases hc : R.compileErr b with
            | none => simp [hs, parseAclEntry_three, finishAclEntry_ok R _ _ _ hc, hc]
            | some e => simp [hs, parseAclEntry_three, finishAclEntry_error R _ _ _ e hc, hc]
          · simp [hs, parseAclEntry_bad_length]
        · rcases ws with _ | ⟨a, _ | ⟨b, _ | ⟨c, tl⟩⟩⟩ <;> simp [hs, h1, h2]

theorem parseAclLoop_prefix (R : RegexpLib) (pre rest : List String) (n : Nat) (acl : Acl)
    (hpre : ∀ x ∈ pre, rejected R x = false) :
    ∃ acl1, parseAclLoop R (pre ++ rest) n acl = parseAclLoop R rest (n + pre.length) acl1 := by
  induction pre generalizing n acl with
  | nil => exact ⟨acl, rfl⟩
  | cons x xs ih =>
    have hx : lineOk R x acl ≠ none := by
      rw [Ne, lineOk_eq_none_iff, hpre x (List.mem_cons_self _ _)]
      simp
    obtain ⟨acl1, h1⟩ := Option.ne_none_iff_exists'.1 hx
    obtain ⟨acl2, h2⟩ := ih (n + 1) acl1 (fun y hy => hpre y (List.mem_cons_of_mem _ hy))
    refine ⟨acl2, ?_⟩
    rw [List.cons_append, parseAclLoop_cons_of_lineOk R x _ n acl acl1 h1, h2]
    simp only [List.length_cons]
    congr 1
    omega

/-- When no line is rejected `parseAcl` succeeds. -/
theorem parseAcl_ok_of_none_rejected (R : RegexpLib) (lines : List String)
    (h : ∀ x ∈ lines, rejected R x = false) : ∃ acl, parseAcl R lines = Result.ok acl := by
  obtain ⟨acl1, h1⟩ := parseAclLoop_prefix R lines [] 0 ⟨[], []⟩ h
  rw [List.append_nil] at h1
  exact ⟨acl1, by rw [parseAcl, h1, parseAclLoop]⟩

/-- At the first rejected line `parseAcl` stops: with an error naming its
1-indexed position when the line has a field, with a panic when it has none. -/
theorem parseAcl_first_rejected (R : RegexpLib) (pre post : List String) (l : String)
    (hpre : ∀ x ∈ pre, rejected R x = false) (hl : rejected R l = true) :
    (Fields (TrimLeft l " \t") ≠ [] →
      ∃ msg, parseAcl R (pre ++ l :: post) = Result.error msg ∧
        Contains msg ("line: " ++ toString (pre.length + 1))) ∧
    (Fields (TrimLeft l " \t") = [] → parseAcl R (pre ++ l :: post) = Result.panic) := by
  obtain ⟨acl1, h1⟩ := parseAclLoop_prefix R pre (l :: post) 0 ⟨[], []⟩ hpre
  have hnone := (lineOk_eq_none_iff R l acl1).2 hl
  obtain ⟨hp, he⟩ := parseAclLoop_cons_of_none R l post (0 + pre.length) acl1 hnone
  rw [parseAcl, h1]
  simp only [Nat.zero_add] at hp he ⊢
  exact ⟨he, hp⟩

/-! ## Lemmas: successful directory load -/

/-- When every file is readable, every `.conf` file parses and every `.passwd`
file loads, the loop succeeds and appends one Acl per `.conf` file, in order. -/
theorem loadFiles_ok (R : RegexpLib) (fs : FileSystem) (dir : String)
    (files : List FileInfo) (proxy : Store)
    (hread : ∀ fi ∈ files, fi.IsDir = false → ∃ data, fs.ReadFile (fs.Join dir fi.Name) = Except.ok data)
    (hconf : ∀ fi ∈ files, isConf fi = true → ∀ data,
      fs.ReadFile (fs.Join dir fi.Name) = Except.ok data → ∃ acl, loadAclFromFile R data = Result.ok acl)
    (hpw : ∀ fi ∈ files, isPasswd fi = true → ∀ data,
      fs.ReadFile (fs.Join dir fi.Name) = Except.ok data →
        ∃ users, loadUsersFromFile data = Result.ok users) :
    ∃ acls users, loadFiles R fs dir files proxy =
        (⟨proxy.Acls ++ acls, proxy.Passwd ++ users⟩, Result.ok ()) ∧
      List.Forall₂ (fun fi acl => ∃ data, fs.ReadFile (fs.Join dir fi.Name) = Except.ok data ∧
        loadAclFromFile R data = Result.ok acl) (files.filter isConf) acls := by
  induction files generalizing proxy with
  | nil => exact ⟨[], [], by simp [loadFiles], by simp⟩
  | cons fi rest ih =>
    have hread' := fun x hx => hread x (List.mem_cons_of_mem _ hx)
    have hconf' := fun x hx => hconf x (List.mem_cons_of_mem _ hx)
    have hpw' := fun x hx => hpw x (List.mem_cons_of_mem _ hx)
    rw [loadFiles]
    by_cases hd : fi.IsDir = true
    · rw [if_pos hd]
      obtain ⟨acls, users, h1, h2⟩ := ih proxy hread' hconf' hpw'
      refine ⟨acls, users, h1, ?_⟩
      have : isConf fi = false := by simp [isConf, hd]
      rw [List.filter_cons_of_neg (by simp [this])]
      exact h2
    · rw [if_neg hd]
      simp only [Bool.not_eq_true] at hd
      obtain ⟨data, hdata⟩ := hread fi (List.mem_cons_self _ _) hd
      simp only [hdata]
      by_cases hc : Ext fi.Name = ".conf"
      · rw [if_pos hc]
        have hic : isConf fi = true := by simp [isConf, hd, hc]
        obtain ⟨acl, hacl⟩ := hconf fi (List.mem_cons_self _ _) hic data hdata
        simp only [hacl]
        obtain ⟨acls, users, h1, h2⟩ := ih ⟨proxy.Acls ++ [acl], proxy.Passwd⟩ hread' hconf' hpw'
        refine ⟨acl :: acls, users, ?_, ?_⟩
        · rw [h1]; simp
        · rw [List.filter_cons_of_pos hic]
          exact List.Forall₂.cons ⟨data, hdata, hacl⟩ h2
      · rw [if_neg hc]
        have hic : isConf fi = false := by simp [isConf, hc]
        rw [List.filter_cons_of_neg (by simp [hic])]
        by_cases hp : Ext fi.Name = ".passwd"
        · rw [if_pos hp]
          have hip : isPasswd fi = true := by simp [isPasswd, hd, hc, hp]
          obtain ⟨us, hus⟩ := hpw fi (List.mem_cons_self _ _) hip data hdata
          simp only [hus]
          obtain ⟨acls, users, h1, h2⟩ := ih ⟨proxy.Acls, proxy.Passwd ++ us⟩ hread' hconf' hpw'
          refine ⟨acls, us ++ users, ?_, h2⟩
          rw [h1]; simp
        · rw [if_neg hp]
          exact ih proxy hread' hconf' hpw'

/-- The same for `LoadConfigFromDirectory`, given the listing. -/
theorem LoadConfigFromDirectory_ok (R : RegexpLib) (fs : FileSystem) (dir : String)
    (files : List FileInfo) (proxy : Store) (hdir : fs.ReadDir dir = Except.ok files)
    (hread : ∀ fi ∈ files, fi.IsDir = false → ∃ data, fs.ReadFile (fs.Join dir fi.Name) = Except.ok data)
    (hconf : ∀ fi ∈ files, isConf fi = true → ∀ data,
      fs.ReadFile (fs.Join dir fi.Name) = Except.ok data → ∃ acl, loadAclFromFile R data = Result.ok acl)
    (hpw : ∀ fi ∈ files, isPasswd fi = true → ∀ data,
      fs.ReadFile (fs.Join dir fi.Name) = Except.ok data →
        ∃ users, loadUsersFromFile data = Result.ok users) :
    ∃ acls users, proxy.LoadConfigFromDirectory R fs dir =
        (⟨proxy.Acls ++ acls, proxy.Passwd ++ users⟩, Result.ok ()) ∧
      List.Forall₂ (fun fi acl => ∃ data, fs.ReadFile (fs.Join dir fi.Name) = Except.ok data ∧
        loadAclFromFile R data = Result.ok acl) (files.filter isConf) acls := by
  unfold Store.LoadConfigFromDirectory
  rw [hdir]
  exact loadFiles_ok R fs dir files proxy hread hconf hpw

/-! ## Lemmas: UTF-8 bytes -/

theorem char_toNat_lt (c : Char) : c.toNat < 0x110000 := by
  have h : c.val.toNat.isValidChar := c.valid
  have h2 : c.toNat = c.val.toNat := rfl
  unfold Nat.isValidChar at h
  omega

theorem or_c0 (x : Nat) (h : x < 64) : 0xc0 ||| x = 192 + x := by
  have := Nat.mul_add_lt_is_or (i := 6) (b := x) (by simpa using h) 3
  simpa using this.symm

theorem or_80 (x : Nat) (h : x < 64) : 0x80 ||| x = 128 + x := by
  have := Nat.mul_add_lt_is_or (i := 6) (b := x) (by simpa using h) 2
  simpa using this.symm

theorem or_e0 (x : Nat) (h : x < 16) : 0xe0 ||| x = 224 + x := by
  have := Nat.mul_add_lt_is_or (i := 4) (b := x) (by simpa using h) 14
  simpa using this.symm

theorem or_f0 (x : Nat) (h : x < 8) : 0xf0 ||| x = 240 + x := by
  have := Nat.mul_add_lt_is_or (i := 3) (b := x) (by simpa using h) 30
  simpa using this.symm

theorem and_3f (x : Nat) : x &&& 0x3f = x % 64 := Nat.and_pow_two_sub_one_eq_mod x 6

/-- The UTF-8 encoding in arithmetic form. -/
theorem utf8EncodeChar_arith (c : Char) :
    utf8EncodeChar c =
      if c.toNat ≤ 0x7f then [c.toNat]
      else if c.toNat ≤ 0x7ff then [192 + c.toNat / 64, 128 + c.toNat % 64]
      else if c.toNat ≤ 0xffff then
        [224 + c.toNat / 4096, 128 + c.toNat / 64 % 64, 128 + c.toNat % 64]
      else
        [240 + c.toNat / 262144, 128 + c.toNat / 4096 % 64, 128 + c.toNat / 64 % 64,
          128 + c.toNat % 64] := by
  have hlt := char_toNat_lt c
  unfold utf8EncodeChar
  simp only [and_3f, Nat.shiftRight_eq_div_pow]
  split_ifs with h1 h2 h3
  · rfl
  · rw [or_c0 _ (by omega), or_80 _ (by omega)]
  · rw [or_e0 _ (by omega), or_80 _ (by omega), or_80 _ (by omega)]
  · rw [or_f0 _ (by omega), or_80 _ (by omega), or_80 _ (by omega), or_80 _ (by omega)]

theorem char_toNat_inj (c d : Char) (h : c.toNat = d.toNat) : c = d := by
  rw [← Char.ofNat_toNat c, ← Char.ofNat_toNat d, h]

theorem utf8EncodeChar_append_inj (c d : Char) (r r' : List Nat)
    (h : utf8EncodeChar c ++ r = utf8EncodeChar d ++ r') : c = d ∧ r = r' := by
  rw [utf8EncodeChar_arith, utf8EncodeChar_arith] at h
  have hc := char_toNat_lt c
  have hd := char_toNat_lt d
  split_ifs at h <;>
    simp only [List.cons_append, List.nil_append, List.cons.injEq] at h <;>
    first
    | (exfalso; omega)
    | exact ⟨char_toNat_inj c d (by omega), by simp [h]⟩

theorem bytes_injective_aux (cs ds : List Char)
    (h : cs.flatMap utf8EncodeChar = ds.flatMap utf8EncodeChar) : cs = ds := by
  induction cs generalizing ds with
  | nil =>
    cases ds with
    | nil => rfl
    | cons d ds =>
      exfalso
      rw [List.flatMap_cons, List.flatMap_nil, utf8EncodeChar_arith] at h
      split_ifs at h <;> simp at h
  | cons c cs ih =>
    cases ds with
    | nil =>
      exfalso
      rw [List.flatMap_cons, List.flatMap_nil, utf8EncodeChar_arith] at h
      split_ifs at h <;> simp at h
    | cons d ds =>
      rw [List.flatMap_cons, List.flatMap_cons] at h
      obtain ⟨h1, h2⟩ := utf8EncodeChar_append_inj c d _ _ h
      rw [h1, ih ds h2]

/-- Distinct strings have distinct byte sequences. -/
theorem bytes_injective (s t : String) (h : bytes s = bytes t) : s = t := by
  have := bytes_injective_aux s.data t.data h
  exact String.ext this

theorem comma_of_mem_bytes (s : String) (h : 44 ∈ bytes s) : ',' ∈ s.data := by
  unfold bytes at h
  rw [List.mem_flatMap] at h
  obtain ⟨c, hc, h44⟩ := h
  rw [utf8EncodeChar_arith] at h44
  have : c = ',' := by
    apply char_toNat_inj
    split_ifs at h44 <;> simp at h44 <;> first | omega | (show c.toNat = 44; omega)
  rw [← this]; exact hc

/-! ## Lemmas: `sort.Strings` -/

theorem lexLe_total (a b : List Nat) : lexLe a b = true ∨ lexLe b a = true := by
  induction a generalizing b with
  | nil => left; simp [lexLe]
  | cons x xs ih =>
    cases b with
    | nil => right; simp [lexLe]
    | cons y ys =>
      simp only [lexLe, Bool.or_eq_true, Bool.and_eq_true, decide_eq_true_eq]
      rcases Nat.lt_trichotomy x y with h | h | h
      · left; left; exact h
      · rcases ih ys with h' | h'
        · left; right; exact ⟨h, h'⟩
        · right; right; exact ⟨h.symm, h'⟩
      · right; left; exact h

theorem lexLe_trans (a b c : List Nat) (h1 : lexLe a b = true) (h2 : lexLe b c = true) :
    lexLe a c = true := by
  induction a generalizing b c with
  | nil => simp [lexLe]
  | cons x xs ih =>
    cases b with
    | nil => simp [lexLe] at h1
    | cons y ys =>
      cases c with
      | nil => simp [lexLe] at h2
      | cons z zs =>
        simp only [lexLe, Bool.or_eq_true, Bool.and_eq_true, decide_eq_true_eq] at h1 h2 ⊢
        rcases h1 with h1 | ⟨h1, h1'⟩
        · rcases h2 with h2 | ⟨h2, _⟩
          · left; omega
          · left; omega
        · rcases h2 with h2 | ⟨h2, h2'⟩
          · left; omega
          · right; exact ⟨by omega, ih ys zs h1' h2'⟩

theorem lexLe_antisymm (a b : List Nat) (h1 : lexLe a b = true) (h2 : lexLe b a = true) :
    a = b := by
  induction a generalizing b with
  | nil =>
    cases b with
    | nil => rfl
    | cons y ys => simp [lexLe] at h2
  | cons x xs ih =>
    cases b with
    | nil => simp [lexLe] at h1
    | cons y ys =>
      simp only [lexLe, Bool.or_eq_true, Bool.and_eq_true, decide_eq_true_eq] at h1 h2
      rcases h1 with h1 | ⟨h1, h1'⟩
      · rcases h2 with h2 | ⟨h2, _⟩ <;> omega
      · rcases h2 with h2 | ⟨_, h2'⟩
        · omega
        · rw [h1, ih ys h1' h2']

instance strLe.isTotal : IsTotal String strLe := ⟨fun _ _ => lexLe_total _ _⟩
instance strLe.isTrans : IsTrans String strLe := ⟨fun _ _ _ h1 h2 => lexLe_trans _ _ _ h1 h2⟩
instance strLe.isAntisymm : IsAntisymm String strLe :=
  ⟨fun _ _ h1 h2 => bytes_injective _ _ (lexLe_antisymm _ _ h1 h2)⟩

theorem sortStrings_perm (l : List String) : (sortStrings l).Perm l :=
  List.perm_insertionSort strLe l

theorem sortStrings_sorted (l : List String) : (sortStrings l).Sorted strLe :=
  List.sorted_insertionSort strLe l

/-- Rearranging the slice does not change its sorted copy. -/
theorem sortStrings_eq_of_perm (a b : List String) (h : a.Perm b) :
    sortStrings a = sortStrings b :=
  List.eq_of_perm_of_sorted
    ((sortStrings_perm a).trans (h.trans (sortStrings_perm b).symm))
    (sortStrings_sorted a) (sortStrings_sorted b)

/-! ## Lemmas: `hashSorted` -/

theorem bytes_append_comma (s : String) : bytes (s ++ ",") = bytes s ++ [44] := by
  unfold bytes
  rw [String.data_append, List.flatMap_append]
  rfl

theorem hashInput_eq (l : List String) :
    hashInput l = (sortStrings l).flatMap (fun s => bytes s ++ [44]) := by
  simp only [hashInput, bytes_append_comma]

theorem length_flatMap_comma (l : List String) :
    (l.flatMap (fun s => bytes s ++ [44])).length = (l.map (fun s => len s + 1)).sum := by
  induction l with
  | nil => rfl
  | cons s rest ih =>
    rw [List.flatMap_cons, List.length_append, ih]
    simp [len]

/-- The number of bytes digested: one more than its length for every string,
duplicates included. -/
theorem hashInput_length (l : List String) :
    (hashInput l).length = (l.map (fun s => len s + 1)).sum := by
  rw [hashInput_eq, length_flatMap_comma]
  exact ((sortStrings_perm l).map _).sum_eq

theorem sublist_sum_le (g : String → Nat) {l1 l2 : List String} (h : l1.Sublist l2) :
    (l1.map g).sum ≤ (l2.map g).sum := by
  induction h with
  | slnil => simp
  | cons a _ ih => simp only [List.map_cons, List.sum_cons]; omega
  | cons₂ a _ ih => simp only [List.map_cons, List.sum_cons]; omega

theorem sublist_eq_of_sum_eq (g : String → Nat) (hg : ∀ s, 0 < g s) {l1 l2 : List String}
    (h : l1.Sublist l2) (hsum : (l1.map g).sum = (l2.map g).sum) : l1 = l2 := by
  induction h with
  | slnil => rfl
  | cons a hsub _ =>
    exfalso
    have := sublist_sum_le g hsub
    have := hg a
    simp only [List.map_cons, List.sum_cons] at hsum
    omega
  | cons₂ a _ ih =>
    simp only [List.map_cons, List.sum_cons] at hsum
    rw [ih (by omega)]

theorem append_comma_inj (x y r r' : List Nat) (hx : 44 ∉ x) (hy : 44 ∉ y)
    (h : x ++ 44 :: r = y ++ 44 :: r') : x = y ∧ r = r' := by
  induction x generalizing y with
  | nil =>
    cases y with
    | nil => simpa using h
    | cons b y =>
      simp only [List.nil_append, List.cons_append, List.cons.injEq] at h
      exact absurd (by rw [← h.1]; exact List.mem_cons_self _ _) hy
  | cons a x ih =>
    cases y with
    | nil =>
      simp only [List.nil_append, List.cons_append, List.cons.injEq] at h
      exact absurd (by rw [h.1]; exact List.mem_cons_self _ _) hx
    | cons b y =>
      simp only [List.cons_append, List.cons.injEq] at h
      obtain ⟨h1, h2⟩ := ih y (fun hm => hx (List.mem_cons_of_mem _ hm))
        (fun hm => hy (List.mem_cons_of_mem _ hm)) h.2
      exact ⟨by rw [h.1, h1], h2⟩

/-- Comma-terminated concatenation is injective on lists of comma-free
strings. -/
theorem flatMap_comma_inj (xs ys : List String) (hx : ∀ s ∈ xs, ',' ∉ s.data)
    (hy : ∀ s ∈ ys, ',' ∉ s.data)
    (h : xs.flatMap (fun s => bytes s ++ [44]) = ys.flatMap (fun s => bytes s ++ [44])) :
    xs = ys := by
  induction xs generalizing ys with
  | nil =>
    cases ys with
    | nil => rfl
    | cons y ys =>
      have := congrArg List.length h
      simp only [List.flatMap_nil, List.flatMap_cons, List.length_nil, List.length_append,
        List.length_singleton] at this
      omega
  | cons x xs ih =>
    cases ys with
    | nil =>
      have := congrArg List.length h
      simp only [List.flatMap_nil, List.flatMap_cons, List.length_nil, List.length_append,
        List.length_singleton] at this
      omega
    | cons y ys =>
      simp only [List.flatMap_cons, List.append_assoc, List.singleton_append] at h
      obtain ⟨h1, h2⟩ := append_comma_inj _ _ _ _
        (fun hm => hx x (List.mem_cons_self _ _) (comma_of_mem_bytes x hm))
        (fun hm => hy y (List.mem_cons_self _ _) (comma_of_mem_bytes y hm)) h
      rw [bytes_injective x y h1, ih ys (fun s hs => hx s (List.mem_cons_of_mem _ hs))
        (fun s hs => hy s (List.mem_cons_of_mem _ hs)) h2]

/-! ## Lemmas: `signHost` -/

theorem CertCache.find_store (cache : CertCache) (key : List Nat) (v : TlsCertificate) :
    (cache.store key v).find key = some v := by
  simp [CertCache.store, CertCache.find]

/-- The outcome of `signHost` on a cache hit. -/
theorem signHost_hit {σ : Type} (O : Oracle σ) (s : CertSigner) (hosts : List String) (w : σ)
    (cert : TlsCertificate)
    (h : s.CertCache.find (hashSorted (hosts ++ [signerVersion])).2 = some cert) :
    signHost O s hosts w = (Result.ok cert, s, w) := by
  unfold signHost
  simp only [h]

/-- A successful `signHost` leaves the returned certificate under the key of
the hosts. -/
theorem signHost_ok_cached {σ : Type} (O : Oracle σ) (s s' : CertSigner) (hosts : List String)
    (w w' : σ) (cert : TlsCertificate)
    (h : signHost O s hosts w = (Result.ok cert, s', w')) :
    s'.CertCache.find (hashSorted (hosts ++ [signerVersion])).2 = some cert := by
  unfold signHost at h
  simp only at h
  split at h
  · simp only [Prod.mk.injEq, Result.ok.injEq] at h
    obtain ⟨h1, h2, _⟩ := h
    subst h1; subst h2
    assumption
  · split at h
    · simp at h
    · simp at h
    · split at h
      · simp at h
      · split at h
        · simp at h
        · split at h
          · simp at h
          · split at h
            · simp at h
            · simp only [Prod.mk.injEq, Result.ok.injEq] at h
              obtain ⟨h1, h2, _⟩ := h
              subst h1; subst h2
              exact CertCache.find_store _ _ _

theorem signHost_error_state {σ : Type} (O : Oracle σ) (s s' : CertSigner)
    (hosts : List String) (w w' : σ) (e : String)
    (h : signHost O s hosts w = (Result.error e, s', w')) : s' = s := by
  unfold signHost at h
  simp only at h
  repeat' split at h
  all_goals simp only [Prod.mk.injEq, reduceCtorEq, false_and, and_false] at h
  all_goals exact h.2.1.symm

theorem templateLoop_spec {σ : Type} (O : Oracle σ) (hosts : List String) (t : Template) :
    (templateLoop O hosts t).DNSNames = t.DNSNames ++ hosts.filter (notIP O) ∧
    (templateLoop O hosts t).IPAddresses = t.IPAddresses ++ hosts.filterMap O.ParseIP ∧
    (templateLoop O hosts t).Subject.CommonName =
      ((hosts.filter (notIP O)).getLast?).getD t.Subject.CommonName ∧
    (templateLoop O hosts t).Subject.Organization = t.Subject.Organization := by
  induction hosts generalizing t with
  | nil => simp [templateLoop]
  | cons h rest ih =>
    unfold templateLoop
    cases hp : O.ParseIP h with
    | some ip =>
      simp only
      obtain ⟨i1, i2, i3, i4⟩ := ih { t with IPAddresses := t.IPAddresses ++ [ip] }
      refine ⟨?_, ?_, ?_, ?_⟩
      · rw [i1]; simp [notIP, hp]
      · rw [i2]; simp [hp]
      · rw [i3]; simp [notIP, hp]
      · rw [i4]
    | none =>
      simp only
      obtain ⟨i1, i2, i3, i4⟩ := ih { t with
        DNSNames := t.DNSNames ++ [h], Subject := { t.Subject with CommonName := h } }
      refine ⟨?_, ?_, ?_, ?_⟩
      · rw [i1]; simp [notIP, hp]
      · rw [i2]; simp [hp]
      · rw [i3]
        have hf : (h :: rest).filter (notIP O) = h :: rest.filter (notIP O) :=
          List.filter_cons_of_pos (by simp [notIP, hp])
        rw [hf]
        generalize rest.filter (notIP O) = l
        cases l with
        | nil => rfl
        | cons a l =>
          rw [List.getLast?_cons_cons]
          cases hl : (a :: l).getLast? with
          | none => simp at hl
          | some x => rfl
      · rw [i4]

theorem filter_filterMap_length {σ : Type} (O : Oracle σ) (hosts : List String) :
    (hosts.filter (notIP O)).length + (hosts.filterMap O.ParseIP).length = hosts.length := by
  induction hosts with
  | nil => rfl
  | cons h rest ih =>
    cases hp : O.ParseIP h with
    | none =>
      rw [List.filter_cons_of_pos (by simp [notIP, hp]), List.filterMap_cons_none hp]
      simp only [List.length_cons]
      omega
    | some ip =>
      rw [List.filter_cons_of_neg (by simp [notIP, hp]), List.filterMap_cons_some hp]
      simp only [List.length_cons]
      omega

/-! ## Lemmas: `stripPort` -/

theorem indexRuneAux_none (r : Char) (cs : List Char) (i : Nat) (h : r ∉ cs) :
    indexRuneAux r cs i = none := by
  induction cs generalizing i with
  | nil => rfl
  | cons c cs ih =>
    unfold indexRuneAux
    have hc : c ≠ r := fun e => h (e ▸ List.mem_cons_self _ _)
    rw [if_neg hc]
    exact ih _ (fun hm => h (List.mem_cons_of_mem _ hm))

theorem indexRuneAux_first (r : Char) (cs rest : List Char) (i : Nat) (h : r ∉ cs) :
    indexRuneAux r (cs ++ r :: rest) i = some (i + byteLen cs) := by
  induction cs generalizing i with
  | nil => simp [indexRuneAux, byteLen]
  | cons c cs ih =>
    have hc : c ≠ r := fun e => h (e ▸ List.mem_cons_self _ _)
    rw [List.cons_append, indexRuneAux, if_neg hc, ih _ (fun hm => h (List.mem_cons_of_mem _ hm))]
    simp only [byteLen, List.flatMap_cons, List.length_append]
    congr 1
    omega

theorem takeBytes_prefix (cs rest : List Char) :
    takeBytes (cs ++ ':' :: rest) (byteLen cs) = cs := by
  induction cs with
  | nil => simp [takeBytes, byteLen]; decide
  | cons c cs ih =>
    rw [List.cons_append, takeBytes]
    have : byteLen (c :: cs) = (utf8EncodeChar c).length + byteLen cs := by
      simp [byteLen, List.flatMap_cons]
    rw [this, if_pos (by omega), Nat.add_sub_cancel_left, ih]

/-- On a host with no colon `stripPort` is the identity; on `H:P` with no colon
in `H` it returns `H`. -/
theorem stripPort_first_colon (H P : String) (hH : ':' ∉ H.data) :
    stripPort H = H ∧ stripPort (H ++ ":" ++ P) = H := by
  constructor
  · simp [stripPort, IndexRune, indexRuneAux_none ':' H.data 0 hH]
  · have hd : (H ++ ":" ++ P).data = H.data ++ ':' :: P.data := by
      simp [String.data_append]
    simp only [stripPort, IndexRune, hd, indexRuneAux_first ':' H.data P.data 0 hH,
      Nat.zero_add, takeBytes_prefix]

/-! ## Lemmas: the store after a failed load -/

theorem loadUsersLoop_ne_error (lines : List String) (acc : List UserEntry) (e : String) :
    loadUsersLoop lines acc ≠ Result.error e := by
  induction lines generalizing acc with
  | nil => simp [loadUsersLoop]
  | cons line rest ih =>
    rw [loadUsersLoop]
    simp only
    split_ifs
    · exact ih _
    · rcases hs : Split (Trim line " \t") ':' with _ | ⟨u, _ | ⟨p, tl⟩⟩
      · simp [index_nil]
      · simp [index_zero_cons, index_one_single]
      · simp only [index_zero_cons, index_one_cons]
        split_ifs
        · exact ih _
        · exact ih _

theorem loadUsersFromFile_ne_error (data e : String) :
    loadUsersFromFile data ≠ Result.error e :=
  loadUsersLoop_ne_error _ _ _

/-- What the store holds after a run of the loop that went through: the Acls
of the `.conf` files and the records of the `.passwd` files, appended in
listing order; every file was readable and loaded. -/
theorem loadFiles_ok_store (R : RegexpLib) (fs : FileSystem) (dir : String)
    (files : List FileInfo) (proxy proxy' : Store)
    (h : loadFiles R fs dir files proxy = (proxy', Result.ok ())) :
    proxy' = ⟨proxy.Acls ++ confAcls R fs dir files, proxy.Passwd ++ passwdUsers fs dir files⟩ ∧
    (∀ fi ∈ files, fi.IsDir = false →
      ∃ data, fs.ReadFile (fs.Join dir fi.Name) = Except.ok data ∧
        (isConf fi = true → ∃ acl, loadAclFromFile R data = Result.ok acl) ∧
        (isPasswd fi = true → ∃ users, loadUsersFromFile data = Result.ok users)) := by
  induction files generalizing proxy with
  | nil =>
    simp only [loadFiles, Prod.mk.injEq] at h
    simp [confAcls, passwdUsers, ← h.1]
  | cons fi rest ih =>
    rw [loadFiles] at h
    by_cases hd : fi.IsDir = true
    · rw [if_pos hd] at h
      obtain ⟨h1, h2⟩ := ih proxy h
      have hc : isConf fi = false := by simp [isConf, hd]
      have hp : isPasswd fi = false := by simp [isPasswd, hd]
      refine ⟨?_, ?_⟩
      · rw [h1]; simp [confAcls, passwdUsers, hc, hp]
      · intro x hx hxd
        rcases List.mem_cons.1 hx with rfl | hx
        · rw [hd] at hxd; exact absurd hxd (by simp)
        · exact h2 x hx hxd
    · rw [if_neg hd] at h
      simp only [Bool.not_eq_true] at hd
      simp only at h
      cases hr : fs.ReadFile (fs.Join dir fi.Name) with
      | error e => rw [hr] at h; simp at h
      | ok data =>
        rw [hr] at h
        simp only at h
        by_cases hc : Ext fi.Name = ".conf"
        · rw [if_pos hc] at h
          have hic : isConf fi = true := by simp [isConf, hd, hc]
          have hip : isPasswd fi = false := by simp [isPasswd, hc]
          cases ha : loadAclFromFile R data with
          | error e => rw [ha] at h; simp at h
          | panic => rw [ha] at h; simp at h
          | ok acl =>
            rw [ha] at h
            simp only at h
            obtain ⟨h1, h2⟩ := ih _ h
            refine ⟨?_, ?_⟩
            · rw [h1]; simp [confAcls, passwdUsers, hic, hip, hr, ha]
            · intro x hx hxd
              rcases List.mem_cons.1 hx with rfl | hx
              · exact ⟨data, hr, fun _ => ⟨acl, ha⟩, fun hp => by rw [hip] at hp; simp at hp⟩
              · exact h2 x hx hxd
        · rw [if_neg hc] at h
          have hic : isConf fi = false := by simp [isConf, hc]
          by_cases hp : Ext fi.Name = ".passwd"
          · rw [if_pos hp] at h
            have hip : isPasswd fi = true := by simp [isPasswd, hd, hc, hp]
            cases hu : loadUsersFromFile data with
            | error e => rw [hu] at h; simp at h
            | panic => rw [hu] at h; simp at h
            | ok users =>
              rw [hu] at h
              simp only at h
              obtain ⟨h1, h2⟩ := ih _ h
              refine ⟨?_, ?_⟩
              · rw [h1]; simp [confAcls, passwdUsers, hic, hip, hr, hu]
              · intro x hx hxd
                rcases List.mem_cons.1 hx with rfl | hx
                · exact ⟨data, hr, fun hq => by rw [hic] at hq; simp at hq, fun _ => ⟨users, hu⟩⟩
                · exact h2 x hx hxd
          · rw [if_neg hp] at h
            have hip : isPasswd fi = false := by simp [isPasswd, hp]
            obtain ⟨h1, h2⟩ := ih proxy h
            refine ⟨?_, ?_⟩
            · rw [h1]; simp [confAcls, passwdUsers, hic, hip]
            · intro x hx hxd
              rcases List.mem_cons.1 hx with rfl | hx
              · exact ⟨data, hr, fun hq => by rw [hic] at hq; simp at hq,
                  fun hq => by rw [hip] at hq; simp at hq⟩
              · exact h2 x hx hxd

/-- The file at which the loop returns an error is a file that cannot be read
or a `.conf` file that fails to parse. -/
theorem loadFiles_single_error (R : RegexpLib) (fs : FileSystem) (dir : String)
    (fi : FileInfo) (p p' : Store) (msg : String)
    (h : loadFiles R fs dir [fi] p = (p', Result.error msg)) :
    fi.IsDir = false ∧
    ((∃ e, fs.ReadFile (fs.Join dir fi.Name) = Except.error e) ∨
     (isConf fi = true ∧ ∃ data e, fs.ReadFile (fs.Join dir fi.Name) = Except.ok data ∧
        loadAclFromFile R data = Result.error e)) := by
  simp only [loadFiles] at h
  by_cases hd : fi.IsDir = true
  · rw [if_pos hd] at h; simp at h
  · rw [if_neg hd] at h
    simp only [Bool.not_eq_true] at hd
    refine ⟨hd, ?_⟩
    cases hr : fs.ReadFile (fs.Join dir fi.Name) with
    | error e => exact Or.inl ⟨e, rfl⟩
    | ok data =>
      rw [hr] at h
      simp only at h
      by_cases hc : Ext fi.Name = ".conf"
      · rw [if_pos hc] at h
        right
        refine ⟨by simp [isConf, hd, hc], data, ?_⟩
        cases ha : loadAclFromFile R data with
        | error e => exact ⟨e, rfl, rfl⟩
        | panic => rw [ha] at h; simp at h
        | ok acl => rw [ha] at h; simp at h
      · rw [if_neg hc] at h
        by_cases hp : Ext fi.Name = ".passwd"
        · rw [if_pos hp] at h
          cases hu : loadUsersFromFile data with
          | error e => exact absurd hu (loadUsersFromFile_ne_error data e)
          | panic => rw [hu] at h; simp at h
          | ok users => rw [hu] at h; simp at h
        · rw [if_neg hp] at h; simp at h

/-! ## Lemmas: the template `signHost` signs -/

/-- On a cache miss with a CA that parses, random bytes and a fresh key at
hand, `signHost` passes to `CreateCertificate` the template built from its own
hosts: a signing error is returned as it is, and a signature becomes the leaf
that is stored under the key of the hosts and returned. -/
theorem signHost_miss {σ : Type} (O : Oracle σ) (s : CertSigner) (hosts : List String)
    (w w1 w2 w3 : σ) (caDer randomSerial : List Nat) (x509ca : X509Certificate)
    (certpriv : RsaKey)
    (hmiss : s.CertCache.find (hashSorted (hosts ++ [signerVersion])).2 = none)
    (hca : index s.CA.Certificate 0 = Result.ok caDer)
    (hparse : O.ParseCertificate caDer = Except.ok x509ca)
    (hrand : O.randRead 20 w = (Except.ok randomSerial, w1))
    (hkey : O.GenerateKey 2048 w1 = (Except.ok certpriv, w2)) :
    (∀ derBytes,
      O.CreateCertificate (buildTemplate O (setBytes randomSerial) x509ca hosts) x509ca
          certpriv.PublicKey s.CA.PrivateKey w2 = (Except.ok derBytes, w3) →
        signHost O s hosts w =
          (Result.ok ⟨[derBytes, caDer], certpriv⟩,
            CertSigner.mk s.CA (s.CertCache.store (hashSorted (hosts ++ [signerVersion])).2
              ⟨[derBytes, caDer], certpriv⟩), w3)) ∧
    (∀ e,
      O.CreateCertificate (buildTemplate O (setBytes randomSerial) x509ca hosts) x509ca
          certpriv.PublicKey s.CA.PrivateKey w2 = (Except.error e, w3) →
        signHost O s hosts w = (Result.error e, s, w3)) := by
  constructor
  · intro derBytes hsign
    unfold signHost
    simp only [hmiss, hca, hparse, hrand, hkey, hsign]
  · intro e hsign
    unfold signHost
    simp only [hmiss, hca, hparse, hrand, hkey, hsign]

/-- The names and the subject of the template built for a hostname list. -/
theorem buildTemplate_spec {σ : Type} (O : Oracle σ) (serial : Nat) (x509ca : X509Certificate)
    (hosts : List String) :
    (buildTemplate O serial x509ca hosts).DNSNames = hosts.filter (notIP O) ∧
    (buildTemplate O serial x509ca hosts).IPAddresses = hosts.filterMap O.ParseIP ∧
    (buildTemplate O serial x509ca hosts).Subject.CommonName =
      ((hosts.filter (notIP O)).getLast?).getD "" ∧
    (buildTemplate O serial x509ca hosts).Subject.Organization = ["Inkfish MITM Proxy"] := by
  obtain ⟨h1, h2, h3, h4⟩ := templateLoop_spec O hosts
    { SerialNumber := serial
      Issuer := x509ca.Subject
      Subject := { Organization := ["Inkfish MITM Proxy"], CommonName := "" }
      NotBefore := 0
      NotAfter := 2524521600
      KeyUsage := KeyUsageKeyEncipherment ||| KeyUsageDigitalSignature
      ExtKeyUsage := [ExtKeyUsageServerAuth]
      BasicConstraintsValid := true
      IPAddresses := []
      DNSNames := [] }
  refine ⟨?_, ?_, h3, h4⟩
  · simpa [buildTemplate] using h1
  · simpa [buildTemplate] using h2

/-! ## Lemmas: lines `parseAcl` passes over -/

theorem dropWhile_spaceTab_append (ws cs : List Char) (hws : ∀ c ∈ ws, c = ' ' ∨ c = '\t') :
    (ws ++ cs).dropWhile (fun c => " \t".data.contains c) =
      cs.dropWhile (fun c => " \t".data.contains c) := by
  induction ws with
  | nil => rfl
  | cons c ws ih =>
    have hc : " \t".data.contains c = true := by
      rcases hws c (List.mem_cons_self _ _) with h | h <;> subst h <;> decide
    rw [List.cons_append, List.dropWhile_cons_of_pos hc]
    exact ih (fun x hx => hws x (List.mem_cons_of_mem _ hx))

theorem TrimLeft_prepend (ws : List Char) (l : String) (hws : ∀ c ∈ ws, c = ' ' ∨ c = '\t') :
    TrimLeft ⟨ws ++ l.data⟩ " \t" = TrimLeft l " \t" := by
  simp only [TrimLeft]
  rw [dropWhile_spaceTab_append ws l.data hws]

theorem skipped_of_spaceTabOnly (l : String) (h : SpaceTabOnly l) : skipped l = true := by
  have : TrimLeft l " \t" = ⟨[]⟩ := by
    simp only [TrimLeft]
    have := dropWhile_spaceTab_append l.data [] h
    rw [List.append_nil] at this
    rw [this]; rfl
  rw [skipped, this]
  rfl

theorem skipped_of_commentLine (l : String) (h : CommentLine l) : skipped l = true := by
  obtain ⟨ws, rest, hl, hws⟩ := h
  have : TrimLeft l " \t" = ⟨'#' :: rest⟩ := by
    simp only [TrimLeft]
    rw [hl, dropWhile_spaceTab_append ws _ hws]
    rfl
  rw [skipped, this]
  simp [firstIs]

theorem significantLines_append (xs ys : List String) :
    significantLines (xs ++ ys) = significantLines xs ++ significantLines ys := by
  simp [significantLines]

theorem significantLines_cons_skipped (b : String) (ys : List String) (h : skipped b = true) :
    significantLines (b :: ys) = significantLines ys := by
  simp [significantLines, h]

theorem significantLines_cons_prepend (ws : List Char) (l : String) (ys : List String)
    (hws : ∀ c ∈ ws, c = ' ' ∨ c = '\t') :
    significantLines (⟨ws ++ l.data⟩ :: ys) = significantLines (l :: ys) := by
  have h1 : skipped ⟨ws ++ l.data⟩ = skipped l := by
    simp only [skipped, TrimLeft_prepend ws l hws]
  by_cases hs : skipped l = true
  · rw [significantLines_cons_skipped _ _ (h1.trans hs), significantLines_cons_skipped _ _ hs]
  · simp only [significantLines, List.filter_cons, h1, hs, Bool.not_eq_true] 
    simp [hs, TrimLeft_prepend ws l hws]

/-- A successful parse is insensitive to lines of spaces and tabs, to comment
lines and to leading spaces and tabs: adding or removing them gives the same
Acl. -/
theorem parseAcl_ok_insensitive (R : RegexpLib) (lines : List String) (acl : Acl)
    (h : parseAcl R lines = Result.ok acl) :
    (∀ pre post b, lines = pre ++ post → SpaceTabOnly b ∨ CommentLine b →
      parseAcl R (pre ++ b :: post) = Result.ok acl) ∧
    (∀ pre post b, lines = pre ++ b :: post → SpaceTabOnly b ∨ CommentLine b →
      parseAcl R (pre ++ post) = Result.ok acl) ∧
    (∀ pre post l ws, lines = pre ++ l :: post → (∀ c ∈ ws, c = ' ' ∨ c = '\t') →
      parseAcl R (pre ++ ⟨ws ++ l.data⟩ :: post) = Result.ok acl) ∧
    (∀ pre post l ws, lines = pre ++ ⟨ws ++ l.data⟩ :: post → (∀ c ∈ ws, c = ' ' ∨ c = '\t') →
      parseAcl R (pre ++ l :: post) = Result.ok acl) := by
  have hgen : ∀ lines', significantLines lines' = significantLines lines →
      parseAcl R lines' = Result.ok acl := by
    intro lines' heq
    unfold parseAcl at h ⊢
    rw [parseAclLoop_ok_significant R lines' 0 0, heq,
      ← parseAclLoop_ok_significant R lines 0 0]
    exact h
  have hsk : ∀ b, SpaceTabOnly b ∨ CommentLine b → skipped b = true := by
    intro b hb
    rcases hb with hb | hb
    · exact skipped_of_spaceTabOnly b hb
    · exact skipped_of_commentLine b hb
  refine ⟨?_, ?_, ?_, ?_⟩
  · intro pre post b hl hb
    apply hgen
    rw [hl, significantLines_append, significantLines_append,
      significantLines_cons_skipped b post (hsk b hb)]
  · intro pre post b hl hb
    apply hgen
    rw [hl, significantLines_append, significantLines_append,
      significantLines_cons_skipped b post (hsk b hb)]
  · intro pre post l ws hl hws
    apply hgen
    rw [hl, significantLines_append, significantLines_append,
      significantLines_cons_prepend ws l post hws]
  · intro pre post l ws hl hws
    apply hgen
    rw [hl, significantLines_append, significantLines_append,
      significantLines_cons_prepend ws l post hws]

/-! ## Properties of the specification -/

/-- C1: `Permits` is true iff some loaded Acl has the user in its `From` list
and an entry with (`AllMethods` or the method in `Methods`) whose pattern
matches the url; it is false for the empty store and for a user that appears
in no `From` list. -/
theorem C1_permits_iff (R : RegexpLib) (c : Store) (frm method url : String) :
    (c.Permits R frm method url = true ↔
      ∃ a ∈ c.Acls, frm ∈ a.From ∧
        ∃ e ∈ a.Entries, (e.AllMethods = true ∨ method ∈ e.Methods) ∧
          e.Pattern.MatchString R url = true) ∧
    (Store.Permits R ⟨[], c.Passwd⟩ frm method url = false) ∧
    ((∀ a ∈ c.Acls, frm ∉ a.From) → c.Permits R frm method url = false) := by
  have key : c.Permits R frm method url = true ↔
      ∃ a ∈ c.Acls, frm ∈ a.From ∧
        ∃ e ∈ a.Entries, (e.AllMethods = true ∨ method ∈ e.Methods) ∧
          e.Pattern.MatchString R url = true := by
    unfold Store.Permits
    rw [permitsAcls_iff]
    constructor
    · rintro ⟨a, ha, hp⟩
      exact ⟨a, ha, (Acl.Permits_iff R a frm method url).1 hp⟩
    · rintro ⟨a, ha, hp⟩
      exact ⟨a, ha, (Acl.Permits_iff R a frm method url).2 hp⟩
  refine ⟨key, rfl, ?_⟩
  intro hno
  cases hres : c.Permits R frm method url with
  | false => rfl
  | true =>
    obtain ⟨a, ha, hf, _⟩ := key.1 hres
    exact absurd hf (hno a ha)

/-- C2: at the store holding two entries for `"foo"`, a 64-character hash that
does not hex-decode followed by the lowercase hex SHA-256 of `"foo"`,
`CredentialsAreValid "foo" "foo"` returns false: the undecodable entry ends
the scan, although the matching entry alone is accepted. -/
theorem C2_undecodable_hash_stops_scan :
    EncodeToString (SHA256.Sum256 (bytes "foo")) = fooHash ∧
    DecodeString notHexHash = none ∧
    rotatedStore.Passwd = [⟨"foo", notHexHash⟩, ⟨"foo", fooHash⟩] ∧
    rotatedStore.CredentialsAreValid "foo" "foo" = false ∧
    fooStore.CredentialsAreValid "foo" "foo" = true := by
  set_option maxRecDepth 100000 in decide

/-- C3: `CredentialsAreValid u p` is true only if some UserEntry has Username
`u` and a PasswordHash that hex-decodes to SHA-256 of `p`; so it is false for
a username with no entry and for a password whose digest equals no stored hash
of the user; with the single entry `("foo", sha256hex "foo")` it is true for
`("foo", "foo")` and false for `("foo", "bar")` and `("bar", "bar")`. -/
theorem C3_credentials_sound (c : Store) (u p : String) :
    (c.CredentialsAreValid u p = true →
      ∃ e ∈ c.Passwd, e.Username = u ∧
        DecodeString e.PasswordHash = some (SHA256.Sum256 (bytes p))) ∧
    ((∀ e ∈ c.Passwd, e.Username ≠ u) → c.CredentialsAreValid u p = false) ∧
    ((∀ e ∈ c.Passwd, e.Username = u →
        DecodeString e.PasswordHash ≠ some (SHA256.Sum256 (bytes p))) →
      c.CredentialsAreValid u p = false) ∧
    fooStore.Passwd = [⟨"foo", EncodeToString (SHA256.Sum256 (bytes "foo"))⟩] ∧
    fooStore.CredentialsAreValid "foo" "foo" = true ∧
    fooStore.CredentialsAreValid "foo" "bar" = false ∧
    fooStore.CredentialsAreValid "bar" "bar" = false := by
  have key : c.CredentialsAreValid u p = true →
      ∃ e ∈ c.Passwd, e.Username = u ∧
        DecodeString e.PasswordHash = some (SHA256.Sum256 (bytes p)) :=
    fun h => credentialsLoop_true _ _ _ h
  refine ⟨key, ?_, ?_, ?_, ?_, ?_, ?_⟩
  · intro hno
    cases hres : c.CredentialsAreValid u p with
    | false => rfl
    | true =>
      obtain ⟨e, he, hu, _⟩ := key hres
      exact absurd hu (hno e he)
  · intro hno
    cases hres : c.CredentialsAreValid u p with
    | false => rfl
    | true =>
      obtain ⟨e, he, hu, hd⟩ := key hres
      exact absurd hd (hno e he hu)
  · set_option maxRecDepth 100000 in decide
  · set_option maxRecDepth 100000 in decide
  · set_option maxRecDepth 100000 in decide
  · decide

/-- Witness for C3 at the test store: the accepted pair `("foo", "foo")` has
its matching entry. -/
theorem C3_credentials_sound_witness :
    fooStore.CredentialsAreValid "foo" "foo" = true ∧
    ∃ e ∈ fooStore.Passwd, e.Username = "foo" ∧
      DecodeString e.PasswordHash = some (SHA256.Sum256 (bytes "foo")) :=
  ⟨by set_option maxRecDepth 100000 in decide,
   (C3_credentials_sound fooStore "foo" "foo").1
     (by set_option maxRecDepth 100000 in decide)⟩

/-- C4 (counterexample): loading a directory whose first file `a.conf` is valid
and whose second file `b.conf` does not parse returns an error, yet the store,
empty before the call, holds the Acl of `a.conf` afterwards. -/
theorem C4_partial_policy_counterexample :
    Store.LoadConfigFromDirectory literalLib brokenDirFS ⟨[], []⟩ "etc" =
      (⟨[⟨["foo"], [⟨true, [], ⟨"^http://a/"⟩⟩]⟩], []⟩,
        Result.error
          "error in acl file: etc/b.conf: error loading acls: unknown directive at line: 1") ∧
    (Store.LoadConfigFromDirectory literalLib brokenDirFS ⟨[], []⟩ "etc").1 ≠ ⟨[], []⟩ := by
  decide

/-- C4 (amended): when `LoadConfigFromDirectory` returns an error the store is
the store before the call with Acls and UserEntries appended; it is unchanged
when the directory listing fails, and otherwise it holds, after what it held
before, the Acls of the `.conf` files and the UserEntries of the `.passwd`
files that precede the failing file in the listing, each of which was read and
loaded; the failing file, one that cannot be read or a `.conf` file that does
not parse, adds nothing. -/
theorem C4_error_keeps_earlier_files (R : RegexpLib) (fs : FileSystem)
    (proxy proxy' : Store) (configDir msg : String)
    (h : proxy.LoadConfigFromDirectory R fs configDir = (proxy', Result.error msg)) :
    (∃ acls users, proxy' = ⟨proxy.Acls ++ acls, proxy.Passwd ++ users⟩) ∧
    ((∃ e, fs.ReadDir configDir = Except.error e) → proxy' = proxy) ∧
    (∀ files, fs.ReadDir configDir = Except.ok files →
      ∃ pre fi post, files = pre ++ fi :: post ∧
        loadFiles R fs configDir pre proxy = (proxy', Result.ok ()) ∧
        loadFiles R fs configDir [fi] proxy' = (proxy', Result.error msg) ∧
        proxy' = ⟨proxy.Acls ++ confAcls R fs configDir pre,
          proxy.Passwd ++ passwdUsers fs configDir pre⟩ ∧
        (∀ x ∈ pre, x.IsDir = false →
          ∃ data, fs.ReadFile (fs.Join configDir x.Name) = Except.ok data ∧
            (isConf x = true → ∃ acl, loadAclFromFile R data = Result.ok acl) ∧
            (isPasswd x = true → ∃ users, loadUsersFromFile data = Result.ok users)) ∧
        fi.IsDir = false ∧
        ((∃ e, fs.ReadFile (fs.Join configDir fi.Name) = Except.error e) ∨
         (isConf fi = true ∧ ∃ data e,
            fs.ReadFile (fs.Join configDir fi.Name) = Except.ok data ∧
            loadAclFromFile R data = Result.error e))) := by
  unfold Store.LoadConfigFromDirectory at h
  cases hdir : fs.ReadDir configDir with
  | error e =>
    rw [hdir] at h
    simp only [Prod.mk.injEq] at h
    refine ⟨⟨[], [], by simp [← h.1]⟩, fun _ => h.1.symm, ?_⟩
    intro files hf
    exact absurd hf (by simp)
  | ok files =>
    rw [hdir] at h
    simp only at h
    refine ⟨?_, ?_, ?_⟩
    · obtain ⟨acls, users, hx⟩ := loadFiles_extends R fs configDir files proxy
      rw [h] at hx
      exact ⟨acls, users, hx⟩
    · rintro ⟨e, he⟩
      exact absurd he (by simp)
    · intro files' hf
      simp only [Except.ok.injEq] at hf
      subst hf
      obtain ⟨pre, fi, post, hfiles, hpre, hfi⟩ :=
        loadFiles_error R fs configDir files proxy proxy' msg h
      obtain ⟨hstore, hloaded⟩ := loadFiles_ok_store R fs configDir pre proxy proxy' hpre
      obtain ⟨hnodir, hwhy⟩ := loadFiles_single_error R fs configDir fi proxy' proxy' msg hfi
      exact ⟨pre, fi, post, hfiles, hpre, hfi, hstore, hloaded, hnodir, hwhy⟩

/-- Witness for C4 (amended) at the directory with a `.passwd` file, a valid
`a.conf` and a broken `b.conf`: the store holds the user record and the Acl of
the two files before `b.conf`. -/
theorem C4_error_keeps_earlier_files_witness :
    ∃ pre fi post,
      [(⟨"users.passwd", false⟩ : FileInfo), ⟨"a.conf", false⟩, ⟨"b.conf", false⟩] =
        pre ++ fi :: post ∧
      (⟨[⟨["foo"], [⟨true, [], ⟨"^http://a/"⟩⟩]⟩], [⟨"foo", fooHash⟩]⟩ : Store) =
        ⟨([] : List Acl) ++ confAcls literalLib brokenAfterPasswdFS "etc" pre,
          ([] : List UserEntry) ++ passwdUsers brokenAfterPasswdFS "etc" pre⟩ :=
  match (C4_error_keeps_earlier_files literalLib brokenAfterPasswdFS ⟨[], []⟩
    ⟨[⟨["foo"], [⟨true, [], ⟨"^http://a/"⟩⟩]⟩], [⟨"foo", fooHash⟩]⟩ "etc"
    "error in acl file: etc/b.conf: error loading acls: unknown directive at line: 1"
    (by decide)).2.2 _ rfl with
  | ⟨pre, fi, post, hfiles, _, _, hstore, _⟩ => ⟨pre, fi, post, hfiles, hstore⟩

/-- C5: on a passwd text with a valid record followed by a line without a
colon, `loadUsersFromFile` does not drop the line: indexing the second field
panics, and nothing is returned. -/
theorem C5_line_without_colon_panics :
    loadUsersFromFile ("alice:" ++ fooHash ++ "\nbob\n") = Result.panic ∧
    loadUsersFromFile "bob" = Result.panic ∧
    loadUsersFromFile ("alice:" ++ fooHash ++ "\n") = Result.ok [⟨"alice", fooHash⟩] := by
  decide

/-- C6 (counterexample): a line whose hash field is 64 characters that are not
hexadecimal digits produces an entry. -/
theorem C6_non_hex_hash_counterexample :
    loadUsersFromFile ("foo:" ++ notHexHash) = Result.ok [⟨"foo", notHexHash⟩] ∧
    isHex notHexHash = false ∧ len notHexHash = 64 := by
  decide

/-- C6 (amended): the entries `loadUsersFromFile` returns are, in line order,
the entries of the kept lines; each has a non-empty Username and a
PasswordHash exactly 64 bytes long, and a line whose hash field is not 64
bytes long produces no entry. -/
theorem C6_entries_wellformed (data : String) (entries : List UserEntry)
    (h : loadUsersFromFile data = Result.ok entries) :
    entries = (Split data '\n').filterMap entryOfLine ∧
    (∀ e ∈ entries, e.Username ≠ "" ∧ len e.Username ≠ 0 ∧
      len e.PasswordHash = PasswordHashLen) ∧
    (∀ line u p rest, Split (Trim line " \t") ':' = u :: p :: rest →
      len p ≠ PasswordHashLen → entryOfLine line = none) := by
  have hent : entries = (Split data '\n').filterMap entryOfLine := by
    have := loadUsersLoop_ok _ _ _ h
    simpa using this
  refine ⟨hent, ?_, ?_⟩
  · intro e he
    rw [hent, List.mem_filterMap] at he
    obtain ⟨line, _, hl⟩ := he
    have := entryOfLine_some line e hl
    refine ⟨this.1, ?_, this.2⟩
    intro h0
    exact (entryOfLine_len line e hl) h0
  · intro line u p rest hs hp
    unfold entryOfLine
    simp only [hs]
    split_ifs <;> simp_all

/-- Witness for C6 (amended) on a text with a comment, a blank line, a valid
record and two malformed ones. -/
theorem C6_entries_wellformed_witness :
    loadUsersFromFile ("# users\n\n  alice:" ++ fooHash ++ " \nbob:abc\n:" ++ fooHash) =
      Result.ok [⟨"alice", fooHash⟩] ∧
    ((∀ e ∈ [(⟨"alice", fooHash⟩ : UserEntry)], e.Username ≠ "" ∧ len e.Username ≠ 0 ∧
      len e.PasswordHash = PasswordHashLen)) :=
  ⟨by decide,
   (C6_entries_wellformed ("# users\n\n  alice:" ++ fooHash ++ " \nbob:abc\n:" ++ fooHash)
     [⟨"alice", fooHash⟩] (by decide)).2.1⟩

/-- C7: for a word list of 2 or 3 words whose first word is `url` and whose
last word `P` compiles, `parseAclEntry` succeeds with pattern source `P`; with
2 words AllMethods is true and Methods is empty, with 3 words AllMethods is
false and Methods is the second word split on commas (`GET,POST,HEAD` gives
the three methods in order); Methods is non-empty iff AllMethods is false. -/
theorem C7_parseAclEntry_ok (R : RegexpLib) (words : List String) (P : String)
    (hlen : words.length = 2 ∨ words.length = 3)
    (hfirst : words.head? = some "url") (hlast : words.getLast? = some P)
    (hc : R.compileErr P = none) :
    (∃ e, parseAclEntry R words = Result.ok e ∧ e.Pattern.source = P ∧
      (words.length = 2 → e.AllMethods = true ∧ e.Methods = []) ∧
      (words.length = 3 → e.AllMethods = false ∧
        ∃ w1, words.get? 1 = some w1 ∧ e.Methods = Split w1 ',') ∧
      (e.Methods ≠ [] ↔ e.AllMethods = false)) ∧
    Split "GET,POST,HEAD" ',' = ["GET", "POST", "HEAD"] := by
  refine ⟨?_, by decide⟩
  rcases hlen with h2 | h3
  · match words, h2 with
    | [w0, p], _ =>
      simp only [List.head?_cons, Option.some.injEq] at hfirst
      simp only [List.getLast?_cons_cons, List.getLast?_singleton, Option.some.injEq] at hlast
      subst hfirst; subst hlast
      rw [parseAclEntry_two, finishAclEntry_ok R _ _ _ hc]
      simp
  · match words, h3 with
    | [w0, w1, p], _ =>
      simp only [List.head?_cons, Option.some.injEq] at hfirst
      simp only [List.getLast?_cons_cons, List.getLast?_singleton, Option.some.injEq] at hlast
      subst hfirst; subst hlast
      rw [parseAclEntry_three, finishAclEntry_ok R _ _ _ hc]
      simp [Split_ne_nil]

/-- Witness for C7 on the two forms of `TestParseAclUrl`. -/
theorem C7_parseAclEntry_ok_witness :
    (∃ e, parseAclEntry literalLib ["url", "GET,POST,HEAD", "^http://boards\\.4chan\\.org/b/"] =
        Result.ok e ∧ e.Pattern.source = "^http://boards\\.4chan\\.org/b/" ∧
      (["url", "GET,POST,HEAD", "^http://boards\\.4chan\\.org/b/"].length = 2 →
        e.AllMethods = true ∧ e.Methods = []) ∧
      (["url", "GET,POST,HEAD", "^http://boards\\.4chan\\.org/b/"].length = 3 →
        e.AllMethods = false ∧
        ∃ w1, ["url", "GET,POST,HEAD", "^http://boards\\.4chan\\.org/b/"].get? 1 = some w1 ∧
          e.Methods = Split w1 ',') ∧
      (e.Methods ≠ [] ↔ e.AllMethods = false)) ∧
    parseAclEntry literalLib ["url", "^http://boards\\.4chan\\.org/b/"] =
      Result.ok ⟨true, [], ⟨"^http://boards\\.4chan\\.org/b/"⟩⟩ :=
  ⟨(C7_parseAclEntry_ok literalLib ["url", "GET,POST,HEAD", "^http://boards\\.4chan\\.org/b/"]
      "^http://boards\\.4chan\\.org/b/" (Or.inr rfl) rfl rfl (by decide)).1,
   by decide⟩

/-- C8: `parseAclEntry` never panics; it returns an error (and no entry) when
the list has 0, 1, or 4 or more words, when its first word is not `url`, and
when the pattern word does not compile. -/
theorem C8_parseAclEntry_errors (R : RegexpLib) (words : List String) :
    parseAclEntry R words ≠ Result.panic ∧
    (words.length < 2 ∨ 4 ≤ words.length → ∃ msg, parseAclEntry R words = Result.error msg) ∧
    (words.head? ≠ some "url" → ∃ msg, parseAclEntry R words = Result.error msg) ∧
    (∀ P e, words.getLast? = some P → R.compileErr P = some e →
      ∃ msg, parseAclEntry R words = Result.error msg) := by
  refine ⟨parseAclEntry_ne_panic R words, ?_⟩
  by_cases hlen : words.length ≠ 2 ∧ words.length ≠ 3
  · have := parseAclEntry_bad_length R words hlen
    rw [this]
    simp
  · have hlen' : words.length = 2 ∨ words.length = 3 := by omega
    rcases hlen' with h2 | h3
    · match words, h2 with
      | [w0, p], _ =>
        rw [parseAclEntry_two]
        by_cases hu : w0 = "url"
        · subst hu
          simp only [ne_eq, not_true_eq_false, if_false]
          refine ⟨by simp, by simp, ?_⟩
          intro P e hP he
          simp only [List.getLast?_cons_cons, List.getLast?_singleton, Option.some.injEq] at hP
          subst hP
          exact ⟨_, finishAclEntry_error R _ _ _ e he⟩
        · simp [hu]
    · match words, h3 with
      | [w0, w1, p], _ =>
        rw [parseAclEntry_three]
        by_cases hu : w0 = "url"
        · subst hu
          simp only [ne_eq, not_true_eq_false, if_false]
          refine ⟨by simp, by simp, ?_⟩
          intro P e hP he
          simp only [List.getLast?_cons_cons, List.getLast?_singleton, Option.some.injEq] at hP
          subst hP
          exact ⟨_, finishAclEntry_error R _ _ _ e he⟩
        · simp [hu]

/-- Witness for C8 on the failing inputs of `TestParseAclUrl` and on a pattern
that does not compile. -/
theorem C8_parseAclEntry_errors_witness :
    (∃ msg, parseAclEntry literalLib [] = Result.error msg) ∧
    (∃ msg, parseAclEntry literalLib ["foo", "bar", "baz"] = Result.error msg) ∧
    (∃ msg, parseAclEntry literalLib ["url", "("] = Result.error msg) :=
  ⟨(C8_parseAclEntry_errors literalLib []).2.1 (Or.inl (by decide)),
   (C8_parseAclEntry_errors literalLib ["foo", "bar", "baz"]).2.2.1 (by decide),
   (C8_parseAclEntry_errors literalLib ["url", "("]).2.2.2 "(" "missing closing )"
     (by decide) (by decide)⟩

/-- C9: on the lines `from foo`, `\r` the second line is neither blank (after
trimming spaces and tabs), nor a comment, nor a `from` line, nor a `url` line,
yet `parseAcl` returns no error naming line 2: the line has no field and
indexing its first word panics; so does loading a CRLF file with a blank
line. -/
theorem C9_whitespace_line_panics (R : RegexpLib) :
    parseAcl R ["from foo", "\r"] = Result.panic ∧
    loadAclFromFile R "from foo\r\n\r\nurl ^http://a/\r\n" = Result.panic ∧
    rejected R "\r" = true ∧ Fields (TrimLeft "\r" " \t") = [] := by
  refine ⟨?_, ?_, ?_, ?_⟩
  · rfl
  · rfl
  · rfl
  · rfl

/-- When `parseAcl` succeeds, `From` is the concatenation in line order of
the tokens after `from` on the `from` lines and `Entries` are the
`parseAclEntry` results of the `url` lines in line order; removing the skipped
lines (blank or comment), removing leading spaces and tabs, or passing to any
list with the same significant lines leaves the resulting Acl unchanged. -/
theorem parseAcl_ok_characterised (R : RegexpLib) (lines : List String) (acl : Acl)
    (h : parseAcl R lines = Result.ok acl) :
    acl.From = lines.flatMap fromTokens ∧
    (lines.filter isUrlLine).map (fun l => parseAclEntry R (Fields (TrimLeft l " \t"))) =
      acl.Entries.map Result.ok ∧
    parseAcl R (lines.filter (fun l => !skipped l)) = Result.ok acl ∧
    parseAcl R (lines.map (fun l => TrimLeft l " \t")) = Result.ok acl ∧
    (∀ lines', significantLines lines' = significantLines lines →
      parseAcl R lines' = Result.ok acl) := by
  have hgen : ∀ lines', significantLines lines' = significantLines lines →
      parseAcl R lines' = Result.ok acl := by
    intro lines' heq
    unfold parseAcl at h ⊢
    rw [parseAclLoop_ok_significant R lines' 0 0, heq,
      ← parseAclLoop_ok_significant R lines 0 0]
    exact h
  obtain ⟨e1, e2⟩ := parseAclLoop_ok_effect R lines 0 ⟨[], []⟩ acl h
  refine ⟨by simpa using e1, by simpa using e2.symm, ?_, ?_, hgen⟩
  · exact hgen _ (significantLines_filter lines)
  · exact hgen _ (significantLines_map lines)

/-- The lines of `TestAclConfig` with a comment, a blank
line and leading whitespace added. -/
theorem parseAcl_ok_characterised_example :
    parseAcl literalLib
      ["from foo", "from bar", "url ^http(s)?://google.com/",
        "url GET,HEAD ^http(s)?://yahoo.com/"] =
      Result.ok ⟨["foo", "bar"],
        [⟨true, [], ⟨"^http(s)?://google.com/"⟩⟩,
         ⟨false, ["GET", "HEAD"], ⟨"^http(s)?://yahoo.com/"⟩⟩]⟩ :=
  (parseAcl_ok_characterised literalLib
    ["# acl", "from foo", "", " \tfrom bar", "url ^http(s)?://google.com/", "  ",
      "\turl GET,HEAD ^http(s)?://yahoo.com/"]
    ⟨["foo", "bar"],
      [⟨true, [], ⟨"^http(s)?://google.com/"⟩⟩,
       ⟨false, ["GET", "HEAD"], ⟨"^http(s)?://yahoo.com/"⟩⟩]⟩
    (by decide)).2.2.2.2 _ (by decide)

/-- C10: adding a blank line changes the outcome when the line is blank by
white space other than space and tab: the lines `from foo`, `from bar` parse
to the Acl with `From` foo, bar, and with the line `\r` added between them
`parseAcl` panics; a CRLF file parses, and the same file with a blank line
added panics. -/
theorem C10_blank_line_added_panics (R : RegexpLib) :
    parseAcl R ["from foo", "from bar"] = Result.ok ⟨["foo", "bar"], []⟩ ∧
    parseAcl R ["from foo", "\r", "from bar"] = Result.panic ∧
    loadAclFromFile R "from foo\r\nfrom bar\r\n" = Result.ok ⟨["foo", "bar"], []⟩ ∧
    loadAclFromFile R "from foo\r\n\r\nfrom bar\r\n" = Result.panic ∧
    "\r".data.all isSpace = true ∧ Fields "\r" = [] :=
  ⟨rfl, rfl, rfl, rfl, rfl, rfl⟩

/-- C11: loading a directory in which every file is readable and the only
`.conf` file parses does not succeed when a `.passwd` file holds a line without
a colon: the load panics after the Acl of `a.conf` was appended. With two
valid `.conf` files, a sub-directory and a file of another extension the load
succeeds and a fresh store holds exactly two Acls. -/
theorem C11_passwd_panic_aborts_load :
    Store.LoadConfigFromDirectory literalLib badPasswdFS ⟨[], []⟩ "etc" =
      (⟨[⟨["foo"], [⟨true, [], ⟨"^http://a/"⟩⟩]⟩], []⟩, Result.panic) ∧
    Store.LoadConfigFromDirectory literalLib twoConfFS ⟨[], []⟩ "etc" =
      (⟨[⟨["foo"], [⟨true, [], ⟨"^http://a/"⟩⟩]⟩,
         ⟨["bar"], [⟨false, ["GET"], ⟨"^http://b/"⟩⟩]⟩], []⟩, Result.ok ()) := by
  decide

/-- C12: the cache key does not depend on the order of the hostnames: for a
permutation `b` of `a` the digest (and the bytes digested) of `a` with the
version tag equals that of `b` with the tag, so a certificate cached under the
key of `a` is what `signHost` returns for `b`; `hashSorted` leaves its argument
as it was. -/
theorem C12_cache_key_order_independent (a b : List String) (h : a.Perm b) :
    (hashSorted (a ++ [signerVersion])).2 = (hashSorted (b ++ [signerVersion])).2 ∧
    hashInput (a ++ [signerVersion]) = hashInput (b ++ [signerVersion]) ∧
    (hashSorted (a ++ [signerVersion])).1 = a ++ [signerVersion] ∧
    (hashSorted (["a.com", "b.com"] ++ [signerVersion])).2 =
      (hashSorted (["b.com", "a.com"] ++ [signerVersion])).2 ∧
    (∀ (σ : Type) (O : Oracle σ) (s : CertSigner) (w : σ) (cert : TlsCertificate),
      s.CertCache.find (hashSorted (a ++ [signerVersion])).2 = some cert →
        signHost O s b w = (Result.ok cert, s, w)) := by
  have hs : sortStrings (a ++ [signerVersion]) = sortStrings (b ++ [signerVersion]) :=
    sortStrings_eq_of_perm _ _ (h.append_right _)
  have hi : hashInput (a ++ [signerVersion]) = hashInput (b ++ [signerVersion]) := by
    simp only [hashInput, hs]
  refine ⟨by simp only [hashSorted, hi], hi, rfl, ?_, ?_⟩
  swap
  · intro σ O s w cert hc
    apply signHost_hit
    rw [← hc]
    simp only [hashSorted, hi]
  have hs2 : sortStrings (["a.com", "b.com"] ++ [signerVersion]) =
      sortStrings (["b.com", "a.com"] ++ [signerVersion]) :=
    sortStrings_eq_of_perm _ _ ((List.Perm.swap _ _ _).append_right _)
  simp only [hashSorted, hashInput, hs2]

/-- Witness for C12 on the two orders of `a.com`, `b.com`. -/
theorem C12_cache_key_order_independent_witness :
    (hashSorted (["a.com", "b.com"] ++ [signerVersion])).2 =
      (hashSorted (["b.com", "a.com"] ++ [signerVersion])).2 :=
  (C12_cache_key_order_independent ["a.com", "b.com"] ["b.com", "a.com"]
    (List.Perm.swap _ _ _)).1

/-- C13 (counterexample): the bytes digested for `a.com`, `a.com` differ from
those for `a.com`, and so do the two cache keys. -/
theorem C13_duplicates_counterexample :
    hashInput (["a.com", "a.com"] ++ [signerVersion]) ≠
      hashInput (["a.com"] ++ [signerVersion]) ∧
    (hashSorted (["a.com", "a.com"] ++ [signerVersion])).2 ≠
      (hashSorted (["a.com"] ++ [signerVersion])).2 ∧
    ["a.com", "a.com"].dedup = ["a.com"] := by
  set_option maxRecDepth 100000 in decide

/-- C13 (amended): the cache key is computed over the sorted hostname list
with duplicates kept: every hostname contributes its bytes and a comma as often
as it occurs, and the bytes digested for a list equal those for the list with
duplicates removed exactly when the list has no duplicate. -/
theorem C13_duplicates_kept (l : List String) :
    (hashInput l).length = (l.map (fun s => len s + 1)).sum ∧
    (hashInput (l ++ [signerVersion]) = hashInput (l.dedup ++ [signerVersion]) ↔ l.Nodup) := by
  refine ⟨hashInput_length l, ?_, ?_⟩
  · intro h
    have hlen := congrArg List.length h
    rw [hashInput_length, hashInput_length] at hlen
    have hsub : (l.dedup ++ [signerVersion]).Sublist (l ++ [signerVersion]) :=
      (List.dedup_sublist l).append_right _
    have heq := sublist_eq_of_sum_eq (fun s => len s + 1) (fun _ => Nat.succ_pos _) hsub hlen.symm
    have : l.dedup = l := List.append_cancel_right heq
    rw [← this]
    exact List.nodup_dedup l
  · intro h
    rw [h.dedup]

/-- C14: if `signHost` succeeds, an immediately following `signHost` on the
same hosts returns the same certificate for every oracle and every world,
leaves the world as it was (no randomness or key material is consumed) and
leaves the signer state, the cache included, unchanged. -/
theorem C14_second_call_hits {σ τ : Type} (O : Oracle σ) (O' : Oracle τ) (s s' : CertSigner)
    (hosts : List String) (w w' : σ) (w2 : τ) (cert : TlsCertificate)
    (h : signHost O s hosts w = (Result.ok cert, s', w')) :
    signHost O' s' hosts w2 = (Result.ok cert, s', w2) :=
  signHost_hit O' s' hosts w2 cert (signHost_ok_cached O s s' hosts w w' cert h)

/-- Witness for C14: a first call that generates a certificate, then a second
call with an oracle whose key generation fails. -/
theorem C14_second_call_hits_witness :
    signHost failingOracle
        ⟨testSigner.CA, [((hashSorted (["example.com"] ++ [signerVersion])).2,
          ⟨[[5, 6, 7], [48, 130]], ⟨6, 1006⟩⟩)]⟩ ["example.com"] 0 =
      (Result.ok ⟨[[5, 6, 7], [48, 130]], ⟨6, 1006⟩⟩,
        ⟨testSigner.CA, [((hashSorted (["example.com"] ++ [signerVersion])).2,
          ⟨[[5, 6, 7], [48, 130]], ⟨6, 1006⟩⟩)]⟩, 0) :=
  C14_second_call_hits testOracle failingOracle testSigner _ ["example.com"] 5 8 0 _
    (by set_option maxRecDepth 100000 in decide)

/-- C15: whenever `signHost` returns an error the certificate cache, and the
whole signer state, is what it was before the call. -/
theorem C15_error_leaves_cache {σ : Type} (O : Oracle σ) (s s' : CertSigner)
    (hosts : List String) (w w' : σ) (e : String)
    (h : signHost O s hosts w = (Result.error e, s', w')) :
    s'.CertCache = s.CertCache ∧ s' = s := by
  have := signHost_error_state O s s' hosts w w' e h
  exact ⟨by rw [this], this⟩

/-- Witness for C15: key generation fails on a cache miss. -/
theorem C15_error_leaves_cache_witness :
    signHost failingOracle testSigner ["example.com"] 5 =
      (Result.error "no entropy", testSigner, 7) ∧
    testSigner.CertCache = testSigner.CertCache ∧ testSigner = testSigner :=
  ⟨by set_option maxRecDepth 100000 in decide,
   C15_error_leaves_cache failingOracle testSigner testSigner ["example.com"] 5 7 "no entropy"
     (by set_option maxRecDepth 100000 in decide)⟩

/-- C16: in the template built for a hostname list, `DNSNames` is the hostnames
that do not parse as an IP literal, in request order, and `IPAddresses` is the
parsed values of those that do, in request order; every hostname lands in one
of the two lists, the lists hold nothing else, and together they have as many
elements as the request. The template with these two lists is the one
`signHost` signs for its own hosts: on a cache miss the outcome of `signHost`
is the outcome of `CreateCertificate` on that template. -/
theorem C16_template_names {σ : Type} (O : Oracle σ) (serial : Nat) (x509ca : X509Certificate)
    (hosts : List String) :
    (buildTemplate O serial x509ca hosts).DNSNames = hosts.filter (notIP O) ∧
    (buildTemplate O serial x509ca hosts).IPAddresses = hosts.filterMap O.ParseIP ∧
    (∀ h ∈ hosts,
      (O.ParseIP h = none ∧ h ∈ (buildTemplate O serial x509ca hosts).DNSNames) ∨
      (∃ ip, O.ParseIP h = some ip ∧ ip ∈ (buildTemplate O serial x509ca hosts).IPAddresses)) ∧
    (∀ n ∈ (buildTemplate O serial x509ca hosts).DNSNames, n ∈ hosts ∧ O.ParseIP n = none) ∧
    (∀ ip ∈ (buildTemplate O serial x509ca hosts).IPAddresses,
      ∃ h ∈ hosts, O.ParseIP h = some ip) ∧
    (buildTemplate O serial x509ca hosts).DNSNames.length +
      (buildTemplate O serial x509ca hosts).IPAddresses.length = hosts.length ∧
    (∀ (s : CertSigner) (w w1 w2 w3 : σ) (caDer randomSerial : List Nat) (certpriv : RsaKey),
      s.CertCache.find (hashSorted (hosts ++ [signerVersion])).2 = none →
      index s.CA.Certificate 0 = Result.ok caDer →
      O.ParseCertificate caDer = Except.ok x509ca →
      O.randRead 20 w = (Except.ok randomSerial, w1) →
      O.GenerateKey 2048 w1 = (Except.ok certpriv, w2) →
      ∃ t : Template,
        t.DNSNames = hosts.filter (notIP O) ∧
        t.IPAddresses = hosts.filterMap O.ParseIP ∧
        (∀ derBytes,
          O.CreateCertificate t x509ca certpriv.PublicKey s.CA.PrivateKey w2 =
              (Except.ok derBytes, w3) →
            signHost O s hosts w =
              (Result.ok ⟨[derBytes, caDer], certpriv⟩,
                CertSigner.mk s.CA (s.CertCache.store (hashSorted (hosts ++ [signerVersion])).2
                  ⟨[derBytes, caDer], certpriv⟩), w3)) ∧
        (∀ e,
          O.CreateCertificate t x509ca certpriv.PublicKey s.CA.PrivateKey w2 =
              (Except.error e, w3) →
            signHost O s hosts w = (Result.error e, s, w3))) := by
  obtain ⟨hd, hi, _, _⟩ := buildTemplate_spec O serial x509ca hosts
  rw [hd, hi]
  refine ⟨rfl, rfl, ?_, ?_, ?_, ?_, ?_⟩
  · intro h hh
    cases hp : O.ParseIP h with
    | none => exact Or.inl ⟨rfl, List.mem_filter.2 ⟨hh, by simp [notIP, hp]⟩⟩
    | some ip => exact Or.inr ⟨ip, rfl, List.mem_filterMap.2 ⟨h, hh, hp⟩⟩
  · intro n hn
    obtain ⟨h1, h2⟩ := List.mem_filter.1 hn
    exact ⟨h1, by simpa [notIP] using h2⟩
  · intro ip hip
    obtain ⟨h, hh, hp⟩ := List.mem_filterMap.1 hip
    exact ⟨h, hh, hp⟩
  · exact filter_filterMap_length O hosts
  · intro s w w1 w2 w3 caDer randomSerial certpriv hmiss hca hparse hrand hkey
    obtain ⟨hd2, hi2, _, _⟩ := buildTemplate_spec O (setBytes randomSerial) x509ca hosts
    obtain ⟨hok, herr⟩ := signHost_miss O s hosts w w1 w2 w3 caDer randomSerial x509ca
      certpriv hmiss hca hparse hrand hkey
    exact ⟨buildTemplate O (setBytes randomSerial) x509ca hosts, hd2, hi2, hok, herr⟩

/-- Witness for C16: `signHost` on `a`, the IP literal `1.2.3.4` and `b`, with
an oracle whose signature spells out the names of the template: the template
it signs has DNS names `a`, `b` and the IP address 1.2.3.4, and the
certificate returned carries them. -/
theorem C16_template_names_witness :
    signHost namingOracle testSigner ["a", "1.2.3.4", "b"] 5 =
      (Result.ok ⟨[[97, 98, 0, 1, 2, 3, 4, 0, 98], [48, 130]], ⟨6, 1006⟩⟩,
        ⟨testSigner.CA, [((hashSorted (["a", "1.2.3.4", "b"] ++ [signerVersion])).2,
          ⟨[[97, 98, 0, 1, 2, 3, 4, 0, 98], [48, 130]], ⟨6, 1006⟩⟩)]⟩, 8) ∧
    ∃ t : Template, t.DNSNames = ["a", "b"] ∧ t.IPAddresses = [[1, 2, 3, 4]] :=
  ⟨by set_option maxRecDepth 100000 in decide,
   match (C16_template_names namingOracle 0 ⟨[48, 130], ⟨["Test CA"], "ca"⟩⟩
      ["a", "1.2.3.4", "b"]).2.2.2.2.2.2 testSigner 5 6 7 8 [48, 130] (List.replicate 20 5)
      ⟨6, 1006⟩ rfl rfl rfl rfl rfl with
   | ⟨t, h1, h2, _⟩ => ⟨t, h1.trans (by decide), h2.trans (by decide)⟩⟩

/-- C17: on the host `[::1]:443`, of the form `H:P` with `H = [::1]` and no
colon in `P = 443`, `stripPort` cuts at the first colon and returns `[` instead
of `H`; a host with a single colon loses its port and a host without a colon
is returned unchanged. -/
theorem C17_stripPort_first_colon_counterexample :
    stripPort ("[::1]" ++ ":" ++ "443") = "[" ∧ ':' ∉ "443".data ∧
    stripPort "example.com:443" = "example.com" ∧ stripPort "example.com" = "example.com" := by
  decide

/-- C18: in the template the subject common name is the last hostname, in
request order, that does not parse as an IP literal, and is empty when every
hostname parses as one or the list is empty; the subject organization is the
fixed proxy identifier. The template with this subject is the one `signHost`
signs for its own hosts: on a cache miss the outcome of `signHost` is the
outcome of `CreateCertificate` on that template. -/
theorem C18_template_subject {σ : Type} (O : Oracle σ) (serial : Nat)
    (x509ca : X509Certificate) (hosts : List String) :
    (buildTemplate O serial x509ca hosts).Subject.CommonName =
      ((hosts.filter (notIP O)).getLast?).getD "" ∧
    ((∀ h ∈ hosts, notIP O h = false) →
      (buildTemplate O serial x509ca hosts).Subject.CommonName = "") ∧
    (∀ pre post h, hosts = pre ++ h :: post → notIP O h = true →
      (∀ x ∈ post, notIP O x = false) →
      (buildTemplate O serial x509ca hosts).Subject.CommonName = h) ∧
    (buildTemplate O serial x509ca []).Subject.CommonName = "" ∧
    (buildTemplate O serial x509ca hosts).Subject.Organization = ["Inkfish MITM Proxy"] ∧
    (∀ (s : CertSigner) (w w1 w2 w3 : σ) (caDer randomSerial : List Nat) (certpriv : RsaKey),
      s.CertCache.find (hashSorted (hosts ++ [signerVersion])).2 = none →
      index s.CA.Certificate 0 = Result.ok caDer →
      O.ParseCertificate caDer = Except.ok x509ca →
      O.randRead 20 w = (Except.ok randomSerial, w1) →
      O.GenerateKey 2048 w1 = (Except.ok certpriv, w2) →
      ∃ t : Template,
        t.Subject.CommonName = ((hosts.filter (notIP O)).getLast?).getD "" ∧
        t.Subject.Organization = ["Inkfish MITM Proxy"] ∧
        (∀ derBytes,
          O.CreateCertificate t x509ca certpriv.PublicKey s.CA.PrivateKey w2 =
              (Except.ok derBytes, w3) →
            signHost O s hosts w =
              (Result.ok ⟨[derBytes, caDer], certpriv⟩,
                CertSigner.mk s.CA (s.CertCache.store (hashSorted (hosts ++ [signerVersion])).2
                  ⟨[derBytes, caDer], certpriv⟩), w3)) ∧
        (∀ e,
          O.CreateCertificate t x509ca certpriv.PublicKey s.CA.PrivateKey w2 =
              (Except.error e, w3) →
            signHost O s hosts w = (Result.error e, s, w3))) := by
  obtain ⟨_, _, hcn, horg⟩ := buildTemplate_spec O serial x509ca hosts
  refine ⟨hcn, ?_, ?_, rfl, horg, ?_⟩
  · intro hall
    rw [hcn, List.filter_eq_nil_iff.2 (fun h hh => by simp [hall h hh])]
    rfl
  · intro pre post h hhosts hn hpost
    have hp : post.filter (notIP O) = [] :=
      List.filter_eq_nil_iff.2 (fun x hx => by simp [hpost x hx])
    rw [hcn, hhosts, List.filter_append, List.filter_cons_of_pos hn, hp,
      List.getLast?_append_cons, List.getLast?_singleton]
    rfl
  · intro s w w1 w2 w3 caDer randomSerial certpriv hmiss hca hparse hrand hkey
    obtain ⟨_, _, hcn2, horg2⟩ := buildTemplate_spec O (setBytes randomSerial) x509ca hosts
    obtain ⟨hok, herr⟩ := signHost_miss O s hosts w w1 w2 w3 caDer randomSerial x509ca
      certpriv hmiss hca hparse hrand hkey
    exact ⟨buildTemplate O (setBytes randomSerial) x509ca hosts, hcn2, horg2, hok, herr⟩

/-- Witness for C18: with `a.com`, `b.com` and the IP literal `1.2.3.4` the
common name is `b.com`; with the IP literal alone it is empty; and `signHost`
on `a`, `1.2.3.4`, `b`, with an oracle whose signature ends in the common name
of the template, returns a certificate that ends in `b`. -/
theorem C18_template_subject_witness :
    (buildTemplate testOracle 1 ⟨[], ⟨["Test CA"], "ca"⟩⟩
      ["a.com", "b.com", "1.2.3.4"]).Subject.CommonName = "b.com" ∧
    (buildTemplate testOracle 1 ⟨[], ⟨["Test CA"], "ca"⟩⟩ ["1.2.3.4"]).Subject.CommonName = "" ∧
    (signHost namingOracle testSigner ["a", "1.2.3.4", "b"] 5).1 =
      Result.ok ⟨[[97, 98, 0, 1, 2, 3, 4, 0, 98], [48, 130]], ⟨6, 1006⟩⟩ ∧
    ∃ t : Template, t.Subject.CommonName = "b" ∧
      t.Subject.Organization = ["Inkfish MITM Proxy"] :=
  ⟨(C18_template_subject testOracle 1 ⟨[], ⟨["Test CA"], "ca"⟩⟩
      ["a.com", "b.com", "1.2.3.4"]).2.2.1 ["a.com"] ["1.2.3.4"] "b.com" rfl (by decide)
      (by decide),
   (C18_template_subject testOracle 1 ⟨[], ⟨["Test CA"], "ca"⟩⟩ ["1.2.3.4"]).2.1 (by decide),
   by set_option maxRecDepth 100000 in decide,
   match (C18_template_subject namingOracle 0 ⟨[48, 130], ⟨["Test CA"], "ca"⟩⟩
      ["a", "1.2.3.4", "b"]).2.2.2.2.2 testSigner 5 6 7 8 [48, 130] (List.replicate 20 5)
      ⟨6, 1006⟩ rfl rfl rfl rfl rfl with
   | ⟨t, h1, h2, _⟩ => ⟨t, h1.trans (by decide), h2⟩⟩

/-- C19: `parseAcl` is not total: on a line made up of white space other than
space and tab (the `\r` a CRLF file leaves on a blank line) the line is not
skipped, `strings.Fields` returns no word and indexing the first word
panics. -/
theorem C19_parseAcl_not_total (R : RegexpLib) :
    parseAcl R ["\r"] = Result.panic ∧
    parseAcl R ["from foo", " \t\r", "from bar"] = Result.panic ∧
    loadAclFromFile R "from foo\r\n\r\n" = Result.panic ∧
    skipped "\r" = false ∧ Fields (TrimLeft "\r" " \t") = [] :=
  ⟨rfl, rfl, rfl, rfl, rfl⟩

/-- C20: for hostname lists without a comma in any hostname, equal bytes
digested for `a` with the version tag and `b` with the version tag force `a`
and `b` to be permutations of each other. -/
theorem C20_cache_key_injective (a b : List String)
    (ha : ∀ s ∈ a, ',' ∉ s.data) (hb : ∀ s ∈ b, ',' ∉ s.data)
    (h : hashInput (a ++ [signerVersion]) = hashInput (b ++ [signerVersion])) :
    a.Perm b := by
  rw [hashInput_eq, hashInput_eq] at h
  have htag : ',' ∉ signerVersion.data := by decide
  have hfree : ∀ l : List String, (∀ s ∈ l, ',' ∉ s.data) →
      ∀ s ∈ sortStrings (l ++ [signerVersion]), ',' ∉ s.data := by
    intro l hl s hs
    have hm := (sortStrings_perm (l ++ [signerVersion])).subset hs
    rcases List.mem_append.1 hm with h1 | h1
    · exact hl s h1
    · rw [List.mem_singleton.1 h1]; exact htag
  have hs := flatMap_comma_inj _ _ (hfree a ha) (hfree b hb) h
  have hp : (a ++ [signerVersion]).Perm (b ++ [signerVersion]) :=
    (sortStrings_perm _).symm.trans (hs ▸ sortStrings_perm _)
  exact (List.perm_append_right_iff _).1 hp

/-- Witness for C20 on the two orders of `a.com`, `b.com`. -/
theorem C20_cache_key_injective_witness :
    List.Perm ["a.com", "b.com"] ["b.com", "a.com"] :=
  C20_cache_key_injective ["a.com", "b.com"] ["b.com", "a.com"] (by decide) (by decide)
    (by decide)

end Inkfish
